import Mathlib

/-!
Verification of the slang SystemVerilog front-end core against its
specification.  The definitions below are shallow embeddings of the
program's data model and algorithms:

* instance elaboration, parameter assignment matching, hierarchy depth
  limiting and implicit-net creation are translated from
  `DefinitionSymbols.cpp` (`InstanceSymbol::fromSyntax`,
  `recurseInstanceArray`, `createImplicitNets`,
  `DefinitionSymbol::getModportOrError`);
* format-string checking is translated from `SystemSubroutine.cpp`
  (`SystemSubroutine::checkFormatValues`);
* the lexer (token/trivia production and string-literal escape decoding)
  is not part of the sources at hand, only its unit tests are; it is
  modelled from the specification, as marked on each definition.

Machine integers of the source are modelled as `Nat`/`Int`; the source
arithmetic in the parts embedded here never overflows (`uint32_t`
hierarchy depths are tiny, `int32_t` range bounds are used only through
`lower()/upper()` iteration), so no modular reduction is required.
-/

namespace SlangModel

/-- Diagnostic codes of the subset of the program embedded here,
mirroring the `DiagCode` values used by the translated sources. -/
inductive DiagCode where
  | NonPrintableChar
  | UnterminatedBlockComment
  | NestedBlockComment
  | ExpectedClosingQuote
  | OctalEscapeCodeTooBig
  | InvalidHexEscapeCode
  | UnknownEscapeCode
  | UnknownModule
  | MixingOrderedAndNamedParams
  | DuplicateParamAssignment
  | TooManyParamAssignments
  | AssignedToLocalPortParam
  | AssignedToLocalBodyParam
  | ParameterDoesNotExist
  | ParamHasNoValue
  | MaxInstanceDepthExceeded
  | UnknownMember
  | NotAModport
  | FormatNoArgument
  | FormatTooManyArgs
  | FormatMismatchedType
  | FormatRealInt
deriving DecidableEq

/-- Symbol kind tags, from the `SymbolKind` enumeration (restricted to the
kinds the translated code inspects). -/
inductive SymbolKind where
  | Definition
  | ModuleInstance
  | InterfaceInstance
  | ProgramInstance
  | InstanceArray
  | Parameter
  | Modport
  | Net
  | Variable
deriving DecidableEq

/-- A member of a definition's scope, as observed by `getModportOrError`:
only the kind and the name matter there. -/
structure ScopedSymbol where
  kind : SymbolKind
  name : String
deriving DecidableEq

/-- `Scope::find`: look a member up by name (the lazily built name index;
membership by name is all the translated code uses). -/
def findMember (members : List ScopedSymbol) (name : String) : Option ScopedSymbol :=
  members.find? (fun s => s.name == name)

/-- `DefinitionSymbol::getModportOrError` (DefinitionSymbols.cpp): empty
names return null silently; a failed lookup diagnoses `UnknownMember`; a
member of the wrong kind diagnoses `NotAModport`; otherwise the modport
symbol is returned.  The returned diagnostics list holds what the call
adds to the sink. -/
def getModportOrError (members : List ScopedSymbol) (modport : String) :
    Option ScopedSymbol × List DiagCode :=
  if modport = "" then
    (none, [])
  else
    match findMember members modport with
    | none => (none, [DiagCode.UnknownMember])
    | some symbol =>
      if symbol.kind ≠ SymbolKind.Modport then (none, [DiagCode.NotAModport])
      else (some symbol, [])

/-- A format specifier extracted from a format string by the external
`SFormat::parseArgs`; its payload is opaque to `checkFormatValues`. -/
structure FormatSpec where
  id : Nat
deriving DecidableEq

/-- A bound call argument as seen by `SystemSubroutine::checkFormatValues`:
whether it is a compile-time string literal, the outcome of the external
`SFormat::parseArgs` on its raw text (errors carry the parser's own
diagnostics), and its type, opaque here. -/
structure FormatArg where
  isStringLiteral : Bool
  parsed : Except (List DiagCode) (List FormatSpec)
  ty : Nat

/-- The specifier/argument loop of `checkFormatValues` (lines 150-178 of
SystemSubroutine.cpp): one `FormatNoArgument` per specifier left without
an argument, type checks via the external predicates `valid` (argument
type acceptable) and `rti` (real-to-int, warning only), one
`FormatTooManyArgs` if arguments remain after the loop. -/
def checkFormatLoop (valid rti : FormatSpec → Nat → Bool) :
    List FormatSpec → List FormatArg → Bool → List DiagCode → Bool × List DiagCode
  | [], remaining, ok, diags =>
    if remaining.isEmpty then (ok, diags)
    else (false, diags ++ [DiagCode.FormatTooManyArgs])
  | _ :: specs, [], _, diags =>
    checkFormatLoop valid rti specs [] false (diags ++ [DiagCode.FormatNoArgument])
  | spec :: specs, arg :: args, ok, diags =>
    if valid spec arg.ty then checkFormatLoop valid rti specs args ok diags
    else if rti spec arg.ty then
      checkFormatLoop valid rti specs args ok (diags ++ [DiagCode.FormatRealInt])
    else
      checkFormatLoop valid rti specs args false (diags ++ [DiagCode.FormatMismatchedType])

/-- `SystemSubroutine::checkFormatValues` (SystemSubroutine.cpp): when the
first argument is not a compile-time string literal the check is deferred
to runtime (`true`, no diagnostics); otherwise the parsed specifier list
is checked against the remaining arguments. -/
def checkFormatValues (valid rti : FormatSpec → Nat → Bool) (arg0 : FormatArg)
    (rest : List FormatArg) : Bool × List DiagCode :=
  if arg0.isStringLiteral = false then (true, [])
  else
    match arg0.parsed with
    | Except.error parseDiags => (false, parseDiags)
    | Except.ok specs => checkFormatLoop valid rti specs rest true []

/-- `InstanceSymbol::isKind`. -/
def isInstanceKind (k : SymbolKind) : Bool :=
  match k with
  | SymbolKind.ModuleInstance => true
  | SymbolKind.ProgramInstance => true
  | SymbolKind.InterfaceInstance => true
  | _ => false

/-- The parent-chain walk of `InstanceSymbol::fromSyntax` (lines 488-506):
starting from the enclosing scope's symbol, walk parents until the nearest
symbol of an instance kind; its stored `hierarchyDepth` plus one is the
depth of the new instantiation; with no instance ancestor the depth is 0.
The chain lists each ancestor's kind with its stored hierarchy depth. -/
def computeHierarchyDepth (chain : List (SymbolKind × Nat)) : Nat :=
  match chain with
  | [] => 0
  | (k, d) :: rest => if isInstanceKind k then d + 1 else computeHierarchyDepth rest

/-- The depth gate of `InstanceSymbol::fromSyntax`: if the computed depth
exceeds `maxInstanceDepth`, diagnose `MaxInstanceDepthExceeded` and abort
(no instances are created).  The source performs the comparison only when
an instance ancestor was found; with no ancestor the depth is 0, which can
never exceed the unsigned bound, so the two formulations agree. -/
def depthCheck (chain : List (SymbolKind × Nat)) (maxInstanceDepth : Nat) :
    Except DiagCode Nat :=
  let d := computeHierarchyDepth chain
  if maxInstanceDepth < d then Except.error DiagCode.MaxInstanceDepthExceeded
  else Except.ok d

/-- Elaboration of the body of a self-instantiating module (`module m;
m x(); endmodule`) when the enclosing instance sits at `parentDepth`:
`fromSyntax` computes the child depth through `depthCheck` over the parent
chain (whose nearest instance ancestor is the enclosing instance itself);
on success the child instance is created and its identical body is
elaborated in turn.  Returns the depths of the created instances and the
emitted diagnostics.  `fuel` only drives the recursion; `maxDepth + 1 -
parentDepth` steps are always sufficient. -/
def elabSelfInstancesAux : Nat → Nat → Nat → List Nat × List DiagCode
  | 0, _, _ => ([], [])
  | fuel + 1, maxDepth, parentDepth =>
    match depthCheck [(SymbolKind.ModuleInstance, parentDepth)] maxDepth with
    | Except.error d => ([], [d])
    | Except.ok depth =>
      let r := elabSelfInstancesAux fuel maxDepth depth
      (depth :: r.1, r.2)

/-- Whole-compilation view of the self-instantiation scenario: the root
instantiation creates the top instance at hierarchy depth 0, then its body
elaborates recursively.  Returns all created instance depths in creation
order and the diagnostics. -/
def compileSelfInstantiatingModule (maxDepth : Nat) : List Nat × List DiagCode :=
  let r := elabSelfInstancesAux (maxDepth + 1) maxDepth 0
  (0 :: r.1, r.2)

/-- `ConstantRange` (left/right bounds, either direction). -/
structure ConstantRange where
  left : Int
  right : Int
deriving DecidableEq

/-- `ConstantRange::lower`. -/
def ConstantRange.lower (r : ConstantRange) : Int := min r.left r.right

/-- `ConstantRange::upper`. -/
def ConstantRange.upper (r : ConstantRange) : Int := max r.left r.right

/-- Number of values swept by `for (i = lower(); i <= upper(); i++)`. -/
def ConstantRange.width (r : ConstantRange) : Nat := (r.upper - r.lower + 1).toNat

/-- The successive values of the loop counter in `recurseInstanceArray`. -/
def rangeValues (r : ConstantRange) : List Int :=
  (List.range r.width).map (fun (k : Nat) => r.lower + (k : Int))

/-- Elaborated hierarchy symbols produced for one instance name: a concrete
instance (`createInstance`, carrying its `arrayPath` and the parameter
value vector it was handed) or an `InstanceArraySymbol` with its element
list and range. -/
inductive HierSymbol where
  | inst (name : String) (arrayPath : List Int)
      (paramValues : List (String × Option Int))
  | instArray (name : String) (elements : List HierSymbol) (range : ConstantRange)

/-- The `symbol->name = ""` mutation applied to every array element in the
loop of `recurseInstanceArray`. -/
def clearName : HierSymbol → HierSymbol
  | HierSymbol.inst _ p ps => HierSymbol.inst "" p ps
  | HierSymbol.instArray _ es r => HierSymbol.instArray "" es r

/-- `recurseInstanceArray` (DefinitionSymbols.cpp lines 191-235).  Each
dimension arrives pre-evaluated, `none` when `context.evalDimension` did
not produce a range: that yields an empty `InstanceArraySymbol` with a
default-constructed range.  With no dimensions left, `createInstance`
builds one concrete instance whose `arrayPath` is the accumulated index
path.  Otherwise one element per range value is built recursively (the
index appended to the path), each element's name erased. -/
def recurseInstanceArray (name : String) (params : List (String × Option Int))
    (dims : List (Option ConstantRange)) (path : List Int) : HierSymbol :=
  match dims with
  | [] => HierSymbol.inst name path params
  | dim :: rest =>
    match dim with
    | none => HierSymbol.instArray name [] ⟨0, 0⟩
    | some r =>
      HierSymbol.instArray name
        ((rangeValues r).map
          (fun i => clearName (recurseInstanceArray name params rest (path ++ [i])))) r

/-- Collect the `arrayPath`s of all concrete instances in a hierarchy
symbol, descending through at most `depth` nested array levels (the trees
built by `recurseInstanceArray` from `n` dimensions never nest deeper
than `n`). -/
def leafPathsD : Nat → HierSymbol → List (List Int)
  | _, HierSymbol.inst _ p _ => [p]
  | 0, HierSymbol.instArray _ _ _ => []
  | depth + 1, HierSymbol.instArray _ es _ => (es.map (leafPathsD depth)).flatten

/-- Collect the parameter value vectors of all concrete instances, like
`leafPathsD`. -/
def leafParamsD : Nat → HierSymbol → List (List (String × Option Int))
  | _, HierSymbol.inst _ _ ps => [ps]
  | 0, HierSymbol.instArray _ _ _ => []
  | depth + 1, HierSymbol.instArray _ es _ => (es.map (leafParamsD depth)).flatten

/-- Whether a symbol is an empty `InstanceArraySymbol` placeholder. -/
def isEmptyArrayPlaceholder : HierSymbol → Bool
  | HierSymbol.instArray _ [] _ => true
  | _ => false

/-- Elements of an array symbol, empty for a concrete instance. -/
def elementsOf : HierSymbol → List HierSymbol
  | HierSymbol.inst _ _ _ => []
  | HierSymbol.instArray _ es _ => es

/-- All index vectors of a rectangular dimension list, outermost first:
the cartesian product of the ranges' value lists. -/
def indexVectors : List ConstantRange → List (List Int)
  | [] => [[]]
  | r :: rest => (rangeValues r).flatMap (fun i => (indexVectors rest).map (fun t => i :: t))

/-- A parameter assignment item of a hierarchy instantiation: ordered, or
named with an optional initializer (expressions are modelled by the
constant value they elaborate to). -/
inductive ParamAssign where
  | ordered (expr : Int)
  | named (name : String) (expr : Option Int)
deriving DecidableEq

/-- Whether an assignment item uses the named form. -/
def ParamAssign.isNamed : ParamAssign → Bool
  | ParamAssign.ordered _ => false
  | ParamAssign.named _ _ => true

/-- The name a named assignment targets. -/
def ParamAssign.targetName : ParamAssign → Option String
  | ParamAssign.ordered _ => none
  | ParamAssign.named n _ => some n

/-- A declared parameter of a definition, as recorded in
`DefinitionSymbol::parameters`: name, localness, port-list membership and
the declared default initializer (absent when the declaration has none). -/
structure ParamDecl where
  name : String
  isLocalParam : Bool
  isPortParam : Bool
  defaultValue : Option Int
deriving DecidableEq

/-- Result of the assignment-gathering loop of `InstanceSymbol::fromSyntax`
(lines 316-344): the selected mode, the ordered expressions in order, the
named map in insertion order with its used flags, and diagnostics. -/
structure GatherResult where
  orderedMode : Bool
  orderedParams : List Int
  namedParams : List (String × Option Int × Bool)
  diags : List DiagCode
deriving DecidableEq

/-- The gathering loop (lines 316-344): the first assignment fixes the
mode; a form mismatch diagnoses `MixingOrderedAndNamedParams` and breaks;
ordered expressions are queued; named ones are inserted into the map
unless the name is empty, duplicates diagnosing
`DuplicateParamAssignment`. -/
def gatherParamAssignments : List ParamAssign → Bool → Bool → List Int →
    List (String × Option Int × Bool) → List DiagCode → GatherResult
  | [], _, orderedMode, ords, named, diags => ⟨orderedMode, ords, named, diags⟩
  | pa :: rest, hasAssignments, orderedMode, ords, named, diags =>
    if hasAssignments && (pa.isNamed == orderedMode) then
      ⟨orderedMode, ords, named, diags ++ [DiagCode.MixingOrderedAndNamedParams]⟩
    else
      match pa with
      | ParamAssign.ordered e =>
        gatherParamAssignments rest true (if hasAssignments then orderedMode else true)
          (ords ++ [e]) named diags
      | ParamAssign.named n e =>
        if n = "" then
          gatherParamAssignments rest true (if hasAssignments then orderedMode else false)
            ords named diags
        else if (named.find? (fun x => x.1 == n)).isSome then
          gatherParamAssignments rest true (if hasAssignments then orderedMode else false)
            ords named (diags ++ [DiagCode.DuplicateParamAssignment])
        else
          gatherParamAssignments rest true (if hasAssignments then orderedMode else false)
            ords (named ++ [(n, e, false)]) diags

/-- Ordered matching (lines 347-366): walk the declared parameters,
skipping local ones without consuming an assignment; stop when the
assignments run out; leftover assignments diagnose one
`TooManyParamAssignments`. -/
def matchOrderedParams : List ParamDecl → List Int → List (String × Int) →
    List (String × Int) × List DiagCode
  | [], ords, acc =>
    if ords.isEmpty then (acc, []) else (acc, [DiagCode.TooManyParamAssignments])
  | p :: ps, ords, acc =>
    match ords with
    | [] => (acc, [])
    | e :: ords' =>
      if p.isLocalParam then matchOrderedParams ps (e :: ords') acc
      else matchOrderedParams ps ords' (acc ++ [(p.name, e)])

/-- Mark the named-map entry of `n` as used (`it->second.second = true`). -/
def markUsed (named : List (String × Option Int × Bool)) (n : String) :
    List (String × Option Int × Bool) :=
  named.map (fun x => if x.1 == n then (x.1, x.2.1, true) else x)

/-- Named matching (lines 369-393): for each declared parameter, find its
named assignment; mark it used; local parameters diagnose
`AssignedToLocalPortParam`/`AssignedToLocalBodyParam` and are not
overridden; an assignment without initializer keeps the default; otherwise
the override is recorded. -/
def matchNamedParams : List ParamDecl → List (String × Option Int × Bool) →
    List (String × Int) → List DiagCode →
    List (String × Int) × List (String × Option Int × Bool) × List DiagCode
  | [], named, acc, diags => (acc, named, diags)
  | p :: ps, named, acc, diags =>
    match named.find? (fun x => x.1 == p.name) with
    | none => matchNamedParams ps named acc diags
    | some entry =>
      if p.isLocalParam then
        matchNamedParams ps (markUsed named p.name) acc
          (diags ++ [if p.isPortParam then DiagCode.AssignedToLocalPortParam
                     else DiagCode.AssignedToLocalBodyParam])
      else
        match entry.2.1 with
        | none => matchNamedParams ps (markUsed named p.name) acc diags
        | some v => matchNamedParams ps (markUsed named p.name) (acc ++ [(p.name, v)]) diags

/-- The leftover scan (lines 395-404): every named-map entry never marked
used is an assignment for a non-existent parameter, diagnosing one
`ParameterDoesNotExist`. -/
def leftoverNamedDiags (named : List (String × Option Int × Bool)) : List DiagCode :=
  (named.filter (fun x => x.2.2 == false)).map (fun _ => DiagCode.ParameterDoesNotExist)

/-- The parameter-assignment half of `InstanceSymbol::fromSyntax` (lines
306-406): gather, then match in the selected mode, producing the override
map and all diagnostics in emission order. -/
def resolveParamAssignments (defs : List ParamDecl) (assigns : List ParamAssign) :
    List (String × Int) × List DiagCode :=
  let g := gatherParamAssignments assigns false true [] [] []
  if g.orderedMode then
    let m := matchOrderedParams defs g.orderedParams []
    (m.1, g.diags ++ m.2)
  else
    let m := matchNamedParams defs g.namedParams [] []
    (m.1, g.diags ++ m.2.2 ++ leftoverNamedDiags m.2.1)

/-- The once-per-instantiation parameter evaluation (lines 408-441, value
parameters): each declared parameter is cloned into the temporary scope;
with an override its initializer is replaced and resolved, otherwise a
non-local port parameter without initializer diagnoses `ParamHasNoValue`;
otherwise the declared default stands.  Produces the shared parameter
vector handed to every created instance. -/
def evalParamValues (defs : List ParamDecl) (overrides : List (String × Int)) :
    List (String × Option Int) × List DiagCode :=
  match defs with
  | [] => ([], [])
  | p :: ps =>
    let r := evalParamValues ps overrides
    match overrides.find? (fun x => x.1 == p.name) with
    | some ov => ((p.name, some ov.2) :: r.1, r.2)
    | none =>
      if !p.isLocalParam && p.isPortParam && p.defaultValue.isNone then
        ((p.name, none) :: r.1, DiagCode.ParamHasNoValue :: r.2)
      else ((p.name, p.defaultValue) :: r.1, r.2)

/-- The per-statement instance creation of `InstanceSymbol::fromSyntax`
(lines 408-522, ports/nets aside): parameters are resolved and evaluated
once, and the same vector is handed to `recurseInstanceArray` for every
instance name of the statement. -/
def instantiateInstances (defs : List ParamDecl) (assigns : List ParamAssign)
    (instances : List (String × List (Option ConstantRange))) :
    List HierSymbol × List DiagCode :=
  let ov := resolveParamAssignments defs assigns
  let ps := evalParamValues defs ov.1
  (instances.map (fun nd => recurseInstanceArray nd.1 ps.1 nd.2 []), ov.2 ++ ps.2)

/-- A net type as observed by `createImplicitNets`: only its identity and
`isError()` (the representation of `` `default_nettype none ``) matter. -/
structure NetType where
  netName : String
  isError : Bool
deriving DecidableEq

/-- A `NetSymbol` created for an implicit net: name, net type, and the
data type set by `net->setType(comp.getLogicType())`. -/
structure NetSymbol where
  name : String
  netType : NetType
  dataType : String
deriving DecidableEq

/-- Inner loop of `createImplicitNets`: for each identifier token reported
by the external `Expression::findPotentiallyImplicitNets`, create one net
unless the name was already seen in this instantiation statement. -/
def addImplicitNetsForTokens (netType : NetType) : List String → List String →
    List NetSymbol → List String × List NetSymbol
  | [], seen, acc => (seen, acc)
  | t :: ts, seen, acc =>
    if seen.contains t then addImplicitNetsForTokens netType ts seen acc
    else addImplicitNetsForTokens netType ts (seen ++ [t]) (acc ++ [⟨t, netType, "logic"⟩])

/-- Per-connection loop of `createImplicitNets`: connections without an
expression (wildcard or empty forms) are skipped; each expression
contributes the identifier tokens that did not resolve in the enclosing
scope (a connection is `none` when it has no expression). -/
def implicitNetsForConnections (netType : NetType) : List (Option (List String)) →
    List String → List NetSymbol → List String × List NetSymbol
  | [], seen, acc => (seen, acc)
  | none :: conns, seen, acc => implicitNetsForConnections netType conns seen acc
  | some tokens :: conns, seen, acc =>
    let r := addImplicitNetsForTokens netType tokens seen acc
    implicitNetsForConnections netType conns r.1 r.2

/-- `createImplicitNets` (DefinitionSymbols.cpp lines 257-292): with an
error net type (no default nettype in effect) nothing is created at all;
otherwise nets are created per connection expression. -/
def createImplicitNets (conns : List (Option (List String))) (netType : NetType)
    (seen : List String) (results : List NetSymbol) : List String × List NetSymbol :=
  if netType.isError then (seen, results)
  else implicitNetsForConnections netType conns seen results

/-- The instance loop of `InstanceSymbol::fromSyntax` (lines 510-514): one
`createImplicitNets` call per instance of the statement, sharing a single
seen-name set across the whole statement. -/
def implicitNetsForStatement (instances : List (List (Option (List String))))
    (netType : NetType) : List NetSymbol :=
  (instances.foldl (fun st conns => createImplicitNets conns netType st.1 st.2)
    ([], [])).2

/-- First-occurrence deduplication of a name list against an initial seen
set; specifies which names obtain an implicit net. -/
def dedupFirst : List String → List String → List String
  | [], _ => []
  | t :: ts, seen =>
    if seen.contains t then dedupFirst ts seen else t :: dedupFirst ts (seen ++ [t])

/-- All unresolved identifier tokens of one instance's connection list. -/
def connectionTokens (conns : List (Option (List String))) : List String :=
  (conns.map (fun c => c.getD [])).flatten

/-- All unresolved identifier tokens of a statement in connection order. -/
def allConnectionTokens (instances : List (List (Option (List String)))) : List String :=
  (instances.map connectionTokens).flatten

/-- Trivia kinds of the modelled lexer. -/
inductive TriviaKind where
  | Whitespace
  | EndOfLine
  | LineComment
  | BlockComment
deriving DecidableEq

/-- One trivia piece with its raw source text. -/
structure TriviaPiece where
  kind : TriviaKind
  raw : List Char
deriving DecidableEq

/-- Token kinds of the modelled lexer. -/
inductive TokenKind where
  | EndOfFile
  | Identifier
  | IntegerLiteral
  | StringLiteral
  | Unknown
deriving DecidableEq

/-- A token: kind, leading trivia, raw text and decoded value text.
Modelled from the spec: "Immutable.  Fields: kind; raw_text slice into
source; value_text; leading_trivia". -/
structure Token where
  kind : TokenKind
  leadingTrivia : List TriviaPiece
  rawText : List Char
  valueText : List Char
deriving DecidableEq

/-- Modelled from the spec: whitespace trivia characters (space, tab,
vertical tab, form feed). -/
def isWhitespaceChar (c : Char) : Bool :=
  c = ' ' || c = '\t' || c = '\x0b' || c = '\x0c'

/-- Line-ending characters. -/
def isNewlineChar (c : Char) : Bool := c = '\r' || c = '\n'

/-- Modelled from the spec: first character of a normal identifier. -/
def isIdentStart (c : Char) : Bool :=
  ('a' ≤ c && c ≤ 'z') || ('A' ≤ c && c ≤ 'Z') || c = '_'

/-- Decimal digit. -/
def isDecimalDigit (c : Char) : Bool := '0' ≤ c && c ≤ '9'

/-- Modelled from the spec: continuation character of a normal identifier. -/
def isIdentChar (c : Char) : Bool := isIdentStart c || isDecimalDigit c || c = '$'

/-- Octal digit. -/
def isOctalDigit (c : Char) : Bool := '0' ≤ c && c ≤ '7'

/-- Hexadecimal digit. -/
def isHexDigit (c : Char) : Bool :=
  isDecimalDigit c || ('a' ≤ c && c ≤ 'f') || ('A' ≤ c && c ≤ 'F')

/-- Numeric value of a digit run in the given base (digits assumed valid). -/
def digitsValue (base : Nat) (ds : List Char) : Nat :=
  ds.foldl (fun acc c =>
    acc * base +
      (if isDecimalDigit c then c.toNat - 48
       else if 'a' ≤ c && c ≤ 'f' then c.toNat - 87
       else c.toNat - 55)) 0

/-- Modelled from the spec: body of a block comment after the opening
`/*`, scanned to the first closing `*/`; interior comment openers diagnose
`NestedBlockComment`; returns the consumed body (closing delimiter
included when found), the diagnostics, and whether the comment was
terminated. -/
def blockCommentBody : List Char → List Char × List DiagCode × Bool
  | [] => ([], [], false)
  | [c] => ([c], [], false)
  | c1 :: c2 :: rest =>
    if c1 = '*' && c2 = '/' then ([c1, c2], [], true)
    else if c1 = '/' && c2 = '*' then
      let r := blockCommentBody rest
      (c1 :: c2 :: r.1, DiagCode.NestedBlockComment :: r.2.1, r.2.2)
    else
      let r := blockCommentBody (c2 :: rest)
      (c1 :: r.1, r.2.1, r.2.2)

/-- The octal digits consumed by a `\ddd` escape: the digit after the
backslash plus up to two more octal digits. -/
def scanOctalEscapeDigits (d1 : Char) (cs : List Char) : List Char :=
  match cs with
  | d2 :: d3 :: _ =>
    if isOctalDigit d2 then
      if isOctalDigit d3 then [d1, d2, d3] else [d1, d2]
    else [d1]
  | [d2] => if isOctalDigit d2 then [d1, d2] else [d1]
  | [] => [d1]

/-- Result of decoding one escape sequence: consumed raw characters (after
the backslash), contribution to the value text, diagnostics. -/
structure EscapeResult where
  raw : List Char
  val : List Char
  diags : List DiagCode
deriving DecidableEq

/-- Modelled from the spec: string-literal escapes.  `\n \t \v \f \a \\ \"`
decode to the usual characters; a backslash before a line ending continues
the string contributing nothing; `\ddd` octal with value ≥ 0x100 diagnoses
`OctalEscapeCodeTooBig` and contributes nothing; `\xHH` hex with a non-hex
digit after `\x` diagnoses `InvalidHexEscapeCode` and contributes the
following character verbatim; any other `\c` diagnoses `UnknownEscapeCode`
and contributes `c`.  The input is the text after the backslash. -/
def scanEscape : List Char → EscapeResult
  | [] => ⟨[], [], []⟩
  | c :: cs =>
    if c = 'n' then ⟨[c], ['\n'], []⟩
    else if c = 't' then ⟨[c], ['\t'], []⟩
    else if c = 'v' then ⟨[c], ['\x0b'], []⟩
    else if c = 'f' then ⟨[c], ['\x0c'], []⟩
    else if c = 'a' then ⟨[c], ['\x07'], []⟩
    else if c = '\\' then ⟨[c], ['\\'], []⟩
    else if c = '"' then ⟨[c], ['"'], []⟩
    else if c = '\r' then
      match cs with
      | '\n' :: _ => ⟨['\r', '\n'], [], []⟩
      | _ => ⟨['\r'], [], []⟩
    else if c = '\n' then ⟨['\n'], [], []⟩
    else if isOctalDigit c then
      let ds := scanOctalEscapeDigits c cs
      if 256 ≤ digitsValue 8 ds then ⟨ds, [], [DiagCode.OctalEscapeCodeTooBig]⟩
      else ⟨ds, [Char.ofNat (digitsValue 8 ds)], []⟩
    else if c = 'x' then
      match cs with
      | [] => ⟨['x'], [], [DiagCode.InvalidHexEscapeCode]⟩
      | h1 :: cs2 =>
        if isHexDigit h1 then
          match cs2 with
          | h2 :: _ =>
            if isHexDigit h2 then ⟨['x', h1, h2], [Char.ofNat (digitsValue 16 [h1, h2])], []⟩
            else ⟨['x', h1], [Char.ofNat (digitsValue 16 [h1])], []⟩
          | [] => ⟨['x', h1], [Char.ofNat (digitsValue 16 [h1])], []⟩
        else ⟨['x', h1], [h1], [DiagCode.InvalidHexEscapeCode]⟩
    else ⟨[c], [c], [DiagCode.UnknownEscapeCode]⟩

/-- Result of lexing a string-literal body. -/
structure StringBodyResult where
  raw : List Char
  val : List Char
  diags : List DiagCode
deriving DecidableEq

/-- Modelled from the spec: the body of a string literal after the opening
quote.  A closing quote ends the literal; an unescaped line ending or the
end of input terminates it with `ExpectedClosingQuote` (the line ending is
not consumed); escapes decode via `scanEscape`; other characters are
copied.  `fuel` only drives the recursion; `length + 1` steps always
suffice. -/
def scanStringBody : Nat → List Char → StringBodyResult
  | 0, _ => ⟨[], [], []⟩
  | fuel + 1, cs =>
    match cs with
    | [] => ⟨[], [], [DiagCode.ExpectedClosingQuote]⟩
    | c :: cs' =>
      if c = '"' then ⟨['"'], [], []⟩
      else if isNewlineChar c then ⟨[], [], [DiagCode.ExpectedClosingQuote]⟩
      else if c = '\\' then
        let e := scanEscape cs'
        let s := scanStringBody fuel (cs'.drop e.raw.length)
        ⟨'\\' :: (e.raw ++ s.raw), e.val ++ s.val, e.diags ++ s.diags⟩
      else
        let s := scanStringBody fuel cs'
        ⟨c :: s.raw, c :: s.val, s.diags⟩

/-- Result of scanning the leading trivia of one token. -/
structure TriviaResult where
  pieces : List TriviaPiece
  diags : List DiagCode
  rest : List Char
deriving DecidableEq

/-- Modelled from the spec: leading trivia of a token.  Whitespace runs,
line endings (CR, LF, CRLF each one item), line comments (up to, not
including, the line ending), and block comments (unterminated ones
diagnosed and consumed to end of input).  `fuel` only drives the
recursion; `length + 1` steps always suffice. -/
def scanTrivia : Nat → List Char → TriviaResult
  | 0, cs => ⟨[], [], cs⟩
  | fuel + 1, cs =>
    match cs with
    | [] => ⟨[], [], []⟩
    | c :: cs' =>
      if isWhitespaceChar c then
        let ws := cs'.takeWhile isWhitespaceChar
        let r := scanTrivia fuel (cs'.drop ws.length)
        ⟨⟨TriviaKind.Whitespace, c :: ws⟩ :: r.pieces, r.diags, r.rest⟩
      else if c = '\r' then
        match cs' with
        | '\n' :: cs'' =>
          let r := scanTrivia fuel cs''
          ⟨⟨TriviaKind.EndOfLine, ['\r', '\n']⟩ :: r.pieces, r.diags, r.rest⟩
        | _ =>
          let r := scanTrivia fuel cs'
          ⟨⟨TriviaKind.EndOfLine, ['\r']⟩ :: r.pieces, r.diags, r.rest⟩
      else if c = '\n' then
        let r := scanTrivia fuel cs'
        ⟨⟨TriviaKind.EndOfLine, ['\n']⟩ :: r.pieces, r.diags, r.rest⟩
      else if c = '/' then
        match cs' with
        | '/' :: cs'' =>
          let body := cs''.takeWhile (fun x => !isNewlineChar x)
          let r := scanTrivia fuel (cs''.drop body.length)
          ⟨⟨TriviaKind.LineComment, '/' :: '/' :: body⟩ :: r.pieces, r.diags, r.rest⟩
        | '*' :: cs'' =>
          let b := blockCommentBody cs''
          let ds := if b.2.2 then b.2.1 else b.2.1 ++ [DiagCode.UnterminatedBlockComment]
          let r := scanTrivia fuel (cs''.drop b.1.length)
          ⟨⟨TriviaKind.BlockComment, '/' :: '*' :: b.1⟩ :: r.pieces, ds ++ r.diags, r.rest⟩
        | _ => ⟨[], [], cs⟩
      else ⟨[], [], cs⟩

/-- Result of scanning one token after its trivia. -/
structure TokenScanResult where
  kind : TokenKind
  raw : List Char
  val : List Char
  diags : List DiagCode
  rest : List Char
deriving DecidableEq

/-- Modelled from the spec: one token starting at a non-trivia character.
Normal identifiers, decimal integer runs (underscores ignored inside the
run) and string literals are produced; any other byte becomes an `Unknown`
token with a diagnostic, and lexing continues (punctuation, vector
literals and the further literal forms of the full lexer are outside the
modelled subset and fall into the `Unknown` case). -/
def scanToken (c : Char) (cs : List Char) : TokenScanResult :=
  if isIdentStart c then
    let ident := cs.takeWhile isIdentChar
    ⟨TokenKind.Identifier, c :: ident, c :: ident, [], cs.drop ident.length⟩
  else if isDecimalDigit c then
    let digits := cs.takeWhile (fun x => isDecimalDigit x || x = '_')
    ⟨TokenKind.IntegerLiteral, c :: digits, c :: digits, [], cs.drop digits.length⟩
  else if c = '"' then
    let s := scanStringBody (cs.length + 1) cs
    ⟨TokenKind.StringLiteral, '"' :: s.raw, s.val, s.diags, cs.drop s.raw.length⟩
  else ⟨TokenKind.Unknown, [c], [c], [DiagCode.NonPrintableChar], cs⟩

/-- Modelled from the spec: the token production loop.  Each step scans
the leading trivia, then either emits the final `EndOfFile` token carrying
that trivia, or scans one token and continues.  `fuel` only drives the
recursion; `length + 1` steps always suffice. -/
def lexLoop : Nat → List Char → List Token × List DiagCode
  | 0, _ => ([], [])
  | fuel + 1, cs =>
    let t := scanTrivia (cs.length + 1) cs
    match t.rest with
    | [] => ([⟨TokenKind.EndOfFile, t.pieces, [], []⟩], t.diags)
    | c :: cs' =>
      let s := scanToken c cs'
      let r := lexLoop fuel s.rest
      (⟨s.kind, t.pieces, s.raw, s.val⟩ :: r.1, t.diags ++ s.diags ++ r.2)

/-- Modelled from the spec: lex a whole buffer into a token stream
terminated by `EndOfFile`, with all diagnostics. -/
def lex (cs : List Char) : List Token × List DiagCode := lexLoop (cs.length + 1) cs

/-- Concatenated raw text of a trivia list. -/
def triviaRawText (ps : List TriviaPiece) : List Char := (ps.map TriviaPiece.raw).flatten

/-- A token's full text: leading trivia followed by its raw text. -/
def tokenFullText (t : Token) : List Char := triviaRawText t.leadingTrivia ++ t.rawText

/-- Full text of a token stream. -/
def streamText (ts : List Token) : List Char := (ts.map tokenFullText).flatten

/-- A character a string-literal body copies verbatim. -/
def plainStringChar (c : Char) : Bool :=
  !(c = '"' || c = '\\' || c = '\r' || c = '\n')

/-- The distinct non-empty names of the named assignments in order of
first occurrence, continuing a set of already-seen names; specifies which
entries the gathering loop inserts into its named map. -/
def namedNamesDedup : List ParamAssign → List String → List String
  | [], _ => []
  | ParamAssign.ordered _ :: rest, acc => namedNamesDedup rest acc
  | ParamAssign.named n _ :: rest, acc =>
    if n = "" then namedNamesDedup rest acc
    else if acc.contains n then namedNamesDedup rest acc
    else n :: namedNamesDedup rest (acc ++ [n])

/-- The expressions of the ordered assignments, in order. -/
def orderedExprs : List ParamAssign → List Int
  | [] => []
  | ParamAssign.ordered e :: rest => e :: orderedExprs rest
  | ParamAssign.named _ _ :: rest => orderedExprs rest

end SlangModel

namespace SlangModel

theorem findMember_isSome_iff (members : List ScopedSymbol) (name : String) :
    (findMember members name).isSome ↔ ∃ s ∈ members, s.name = name := by
  simp [findMember, List.find?_isSome]

/-- C9: `getModportOrError` returns a modport symbol exactly when the
requested name is non-empty, is found in the definition's scope, and the
found member is a `Modport`; an empty name returns null with no
diagnostic; a failed lookup of a non-empty name diagnoses `UnknownMember`;
a member of the wrong kind diagnoses `NotAModport`. -/
theorem claim_C9_getModportOrError (members : List ScopedSymbol) (modport : String) :
    ((getModportOrError members modport).1.isSome ↔
      modport ≠ "" ∧ ∃ s, findMember members modport = some s ∧ s.kind = SymbolKind.Modport)
    ∧ (modport = "" → getModportOrError members modport = (none, []))
    ∧ (modport ≠ "" → findMember members modport = none →
        getModportOrError members modport = (none, [DiagCode.UnknownMember]))
    ∧ (∀ s, modport ≠ "" → findMember members modport = some s →
        s.kind ≠ SymbolKind.Modport →
        getModportOrError members modport = (none, [DiagCode.NotAModport]))
    ∧ (∀ s, modport ≠ "" → findMember members modport = some s →
        s.kind = SymbolKind.Modport →
        getModportOrError members modport = (some s, [])) := by
  unfold getModportOrError
  by_cases hm : modport = ""
  · simp [hm]
  · cases hf : findMember members modport with
    | none => simp [hm, hf]
    | some s =>
      by_cases hk : s.kind = SymbolKind.Modport
      · simp [hm, hf, hk]
      · simp [hm, hf, hk]

theorem claim_C9_witness :
    getModportOrError [⟨SymbolKind.Variable, "mp"⟩] "mp" = (none, [DiagCode.NotAModport])
    ∧ getModportOrError [⟨SymbolKind.Modport, "mp"⟩] "mp"
        = (some ⟨SymbolKind.Modport, "mp"⟩, []) := by
  constructor
  · exact (claim_C9_getModportOrError [⟨SymbolKind.Variable, "mp"⟩] "mp").2.2.2.1
      ⟨SymbolKind.Variable, "mp"⟩ (by decide) (by decide) (by decide)
  · exact (claim_C9_getModportOrError [⟨SymbolKind.Modport, "mp"⟩] "mp").2.2.2.2
      ⟨SymbolKind.Modport, "mp"⟩ (by decide) (by decide) (by decide)

theorem checkFormatLoop_false (valid rti : FormatSpec → Nat → Bool) :
    ∀ specs args diags, (checkFormatLoop valid rti specs args false diags).1 = false := by
  intro specs
  induction specs with
  | nil =>
    intro args diags
    by_cases h : args.isEmpty <;> simp [checkFormatLoop, h]
  | cons f fs ih =>
    intro args diags
    cases args with
    | nil => simpa [checkFormatLoop] using ih [] _
    | cons a as =>
      by_cases h1 : valid f a.ty
      · simpa [checkFormatLoop, h1] using ih as _
      · by_cases h2 : rti f a.ty <;> simpa [checkFormatLoop, h1, h2] using ih as _

theorem checkFormatLoop_spec (valid rti : FormatSpec → Nat → Bool) :
    ∀ specs args ok diags,
      ((checkFormatLoop valid rti specs args ok diags).2.count DiagCode.FormatNoArgument
        = diags.count DiagCode.FormatNoArgument + (specs.length - args.length))
      ∧ ((checkFormatLoop valid rti specs args ok diags).2.count DiagCode.FormatTooManyArgs
        = diags.count DiagCode.FormatTooManyArgs
            + (if specs.length < args.length then 1 else 0))
      ∧ (specs.length ≠ args.length → (checkFormatLoop valid rti specs args ok diags).1 = false) := by
  intro specs
  induction specs with
  | nil =>
    intro args ok diags
    cases args with
    | nil => simp [checkFormatLoop]
    | cons a as => simp [checkFormatLoop, List.count_append]
  | cons f fs ih =>
    intro args ok diags
    cases args with
    | nil =>
      refine ⟨?_, ?_, fun _ => checkFormatLoop_false valid rti _ _ _⟩
      · have h := (ih [] false (diags ++ [DiagCode.FormatNoArgument])).1
        simp only [checkFormatLoop]
        rw [h]
        simp [List.count_append]
        omega
      · have h := (ih [] false (diags ++ [DiagCode.FormatNoArgument])).2.1
        simp only [checkFormatLoop]
        rw [h]
        simp [List.count_append]
    | cons a as =>
      by_cases h1 : valid f a.ty = true
      · have h := ih as ok diags
        simp only [checkFormatLoop]
        rw [if_pos h1]
        refine ⟨?_, ?_, fun hne => h.2.2 (by simpa using hne)⟩
        · rw [h.1]; simp only [List.length_cons]; omega
        · rw [h.2.1]; simp only [List.length_cons, add_lt_add_iff_right]
      · by_cases h2 : rti f a.ty = true
        · have h := ih as ok (diags ++ [DiagCode.FormatRealInt])
          simp only [checkFormatLoop]
          rw [if_neg h1, if_pos h2]
          refine ⟨?_, ?_, fun hne => h.2.2 (by simpa using hne)⟩
          · rw [h.1]; simp only [List.length_cons, List.count_append]
            simp
          · rw [h.2.1]; simp only [List.length_cons, List.count_append, add_lt_add_iff_right]
            simp
        · have h := ih as false (diags ++ [DiagCode.FormatMismatchedType])
          simp only [checkFormatLoop]
          rw [if_neg h1, if_neg h2]
          refine ⟨?_, ?_, fun _ => checkFormatLoop_false valid rti _ _ _⟩
          · rw [h.1]; simp only [List.length_cons, List.count_append]
            simp
          · rw [h.2.1]; simp only [List.length_cons, List.count_append, add_lt_add_iff_right]
            simp

/-- C10: `checkFormatValues` returns true with no diagnostics whenever the
first argument is not a compile-time string literal; when it is one and
the format string parses, one `FormatNoArgument` is emitted per specifier
lacking an argument, one `FormatTooManyArgs` is emitted when arguments
remain after all specifiers, and in those cases the function returns
false. -/
theorem claim_C10_checkFormatValues (valid rti : FormatSpec → Nat → Bool)
    (arg0 : FormatArg) (rest : List FormatArg) :
    (arg0.isStringLiteral = false → checkFormatValues valid rti arg0 rest = (true, []))
    ∧ (∀ specs, arg0.isStringLiteral = true → arg0.parsed = Except.ok specs →
        ((checkFormatValues valid rti arg0 rest).2.count DiagCode.FormatNoArgument
            = specs.length - rest.length)
        ∧ ((checkFormatValues valid rti arg0 rest).2.count DiagCode.FormatTooManyArgs
            = if specs.length < rest.length then 1 else 0)
        ∧ (specs.length ≠ rest.length → (checkFormatValues valid rti arg0 rest).1 = false)) := by
  constructor
  · intro h
    simp [checkFormatValues, h]
  · intro specs h hp
    have hval := checkFormatLoop_spec valid rti specs rest true []
    simp only [checkFormatValues, h, hp]
    simpa using hval

theorem claim_C10_witness :
    ((checkFormatValues (fun _ _ => true) (fun _ _ => false)
        ⟨true, Except.ok [⟨0⟩, ⟨1⟩], 0⟩ []).2.count DiagCode.FormatNoArgument = 2 - 0)
    ∧ ((checkFormatValues (fun _ _ => true) (fun _ _ => false)
        ⟨true, Except.ok [⟨0⟩, ⟨1⟩], 0⟩ []).1 = false)
    ∧ (checkFormatValues (fun _ _ => true) (fun _ _ => false)
        ⟨false, Except.ok [], 0⟩ [] = (true, [])) := by
  have h := (claim_C10_checkFormatValues (fun _ _ => true) (fun _ _ => false)
    ⟨true, Except.ok [⟨0⟩, ⟨1⟩], 0⟩ []).2 [⟨0⟩, ⟨1⟩] rfl rfl
  exact ⟨h.1, h.2.2 (by decide),
    (claim_C10_checkFormatValues (fun _ _ => true) (fun _ _ => false)
      ⟨false, Except.ok [], 0⟩ []).1 rfl⟩

theorem computeHierarchyDepth_append (pre : List (SymbolKind × Nat)) (k : SymbolKind)
    (d : Nat) (rest : List (SymbolKind × Nat))
    (hpre : ∀ x ∈ pre, isInstanceKind x.1 = false) (hk : isInstanceKind k = true) :
    computeHierarchyDepth (pre ++ (k, d) :: rest) = d + 1 := by
  induction pre with
  | nil => simp [computeHierarchyDepth, hk]
  | cons x xs ih =>
    have hx : isInstanceKind x.1 = false := hpre x (by simp)
    have hxs : ∀ y ∈ xs, isInstanceKind y.1 = false := fun y hy => hpre y (by simp [hy])
    calc computeHierarchyDepth ((x :: xs) ++ (k, d) :: rest)
        = computeHierarchyDepth (xs ++ (k, d) :: rest) := by
          simp [computeHierarchyDepth, hx]
      _ = d + 1 := ih hxs

theorem elabSelfInstancesAux_spec :
    ∀ fuel maxDepth parentDepth, maxDepth - parentDepth < fuel →
      elabSelfInstancesAux fuel maxDepth parentDepth =
        (List.range' (parentDepth + 1) (maxDepth - parentDepth) 1,
         [DiagCode.MaxInstanceDepthExceeded]) := by
  intro fuel
  induction fuel with
  | zero => intro maxDepth p h; omega
  | succ fuel ih =>
    intro maxDepth p h
    have hd : computeHierarchyDepth [(SymbolKind.ModuleInstance, p)] = p + 1 := rfl
    by_cases hgt : maxDepth < p + 1
    · have hz : maxDepth - p = 0 := by omega
      simp [elabSelfInstancesAux, depthCheck, hd, hgt, hz]
    · have hlt : maxDepth - (p + 1) < fuel := by omega
      have hrec := ih maxDepth (p + 1) hlt
      have hsz : maxDepth - p = (maxDepth - (p + 1)) + 1 := by omega
      simp only [elabSelfInstancesAux, depthCheck, hd, hgt, if_false]
      rw [hrec]
      rw [hsz, List.range'_succ]

/-- C2: the elaborator computes the instantiation depth by walking the
parent chain to the nearest `Instance` ancestor and adding one; a depth
exceeding `max_instance_depth` yields one `MaxInstanceDepthExceeded`
diagnostic and no instance symbols, otherwise the depth passes through;
and a module instantiating itself unconditionally produces exactly
`max + 1` nested `ModuleInstance` symbols at depths `0 .. max` followed by
the single diagnostic, so elaboration terminates (for `max = 4`, five
instances). -/
theorem claim_C2_instance_depth_limit :
    (∀ pre k d rest, (∀ x ∈ pre, isInstanceKind x.1 = false) → isInstanceKind k = true →
        computeHierarchyDepth (pre ++ (k, d) :: rest) = d + 1)
    ∧ (∀ chain maxDepth, maxDepth < computeHierarchyDepth chain →
        depthCheck chain maxDepth = Except.error DiagCode.MaxInstanceDepthExceeded)
    ∧ (∀ chain maxDepth, computeHierarchyDepth chain ≤ maxDepth →
        depthCheck chain maxDepth = Except.ok (computeHierarchyDepth chain))
    ∧ (∀ maxDepth, compileSelfInstantiatingModule maxDepth =
        (List.range (maxDepth + 1), [DiagCode.MaxInstanceDepthExceeded])) := by
  refine ⟨computeHierarchyDepth_append, ?_, ?_, ?_⟩
  · intro chain maxDepth h
    simp [depthCheck, h]
  · intro chain maxDepth h
    simp [depthCheck, Nat.not_lt.mpr h]
  · intro maxDepth
    have h := elabSelfInstancesAux_spec (maxDepth + 1) maxDepth 0 (by omega)
    simp only [compileSelfInstantiatingModule]
    rw [h]
    have : List.range (maxDepth + 1) = 0 :: List.range' 1 maxDepth 1 := by
      rw [List.range_eq_range']
      simpa using List.range'_succ 0 maxDepth 1
    simp [this]

theorem claim_C2_witness :
    compileSelfInstantiatingModule 4 = ([0, 1, 2, 3, 4], [DiagCode.MaxInstanceDepthExceeded])
    ∧ computeHierarchyDepth
        [(SymbolKind.Definition, 9), (SymbolKind.ModuleInstance, 2), (SymbolKind.Net, 0)] = 3
    ∧ depthCheck [(SymbolKind.ModuleInstance, 4)] 4
        = Except.error DiagCode.MaxInstanceDepthExceeded := by
  refine ⟨?_, ?_, ?_⟩
  · rw [claim_C2_instance_depth_limit.2.2.2 4]; decide
  · exact claim_C2_instance_depth_limit.1 [(SymbolKind.Definition, 9)]
      SymbolKind.ModuleInstance 2 [(SymbolKind.Net, 0)] (by decide) (by decide)
  · exact claim_C2_instance_depth_limit.2.1 [(SymbolKind.ModuleInstance, 4)] 4 (by decide)

theorem leafPathsD_clearName (d : Nat) (m : HierSymbol) :
    leafPathsD d (clearName m) = leafPathsD d m := by
  cases m <;> cases d <;> rfl

theorem leafParamsD_clearName (d : Nat) (m : HierSymbol) :
    leafParamsD d (clearName m) = leafParamsD d m := by
  cases m <;> cases d <;> rfl

theorem leafPathsD_recurse (name : String) (params : List (String × Option Int)) :
    ∀ rs path, leafPathsD rs.length (recurseInstanceArray name params (rs.map some) path)
      = (indexVectors rs).map (fun t => path ++ t) := by
  intro rs
  induction rs with
  | nil => intro path; simp [recurseInstanceArray, leafPathsD, indexVectors]
  | cons r rest ih =>
    intro path
    show (((rangeValues r).map
        (fun i => clearName (recurseInstanceArray name params (rest.map some) (path ++ [i])))).map
          (leafPathsD rest.length)).flatten
      = (indexVectors (r :: rest)).map (fun t => path ++ t)
    have hrhs : (indexVectors (r :: rest)).map (fun t => path ++ t)
        = ((rangeValues r).map
            (fun i => (indexVectors rest).map (fun t => path ++ i :: t))).flatten := by
      show ((rangeValues r).flatMap (fun i => (indexVectors rest).map (fun t => i :: t))).map
          (fun t => path ++ t) = _
      rw [List.map_flatMap]
      show ((rangeValues r).map
        (fun i => ((indexVectors rest).map (fun t => i :: t)).map (fun t => path ++ t))).flatten = _
      congr 1
      refine List.map_congr_left (fun i _ => ?_)
      rw [List.map_map]
      rfl
    rw [hrhs, List.map_map]
    congr 1
    refine List.map_congr_left (fun i _ => ?_)
    show leafPathsD rest.length
        (clearName (recurseInstanceArray name params (rest.map some) (path ++ [i])))
      = (indexVectors rest).map (fun t => path ++ i :: t)
    rw [leafPathsD_clearName, ih (path ++ [i])]
    refine List.map_congr_left (fun t _ => ?_)
    simp

theorem indexVectors_length :
    ∀ rs, (indexVectors rs).length = (rs.map ConstantRange.width).prod := by
  intro rs
  induction rs with
  | nil => simp [indexVectors]
  | cons r rest ih =>
    have hlen : (rangeValues r).length = r.width := by
      unfold rangeValues
      rw [List.length_map, List.length_range]
    show ((rangeValues r).flatMap (fun i => (indexVectors rest).map (fun t => i :: t))).length
      = (ConstantRange.width r) * (rest.map ConstantRange.width).prod
    rw [List.length_flatMap]
    simp only [Function.comp_def, List.length_map, ih]
    rw [List.map_const', List.sum_replicate, smul_eq_mul, hlen]

/-- C3 (amended): when every dimension of an instance name evaluates to a
constant range, `recurseInstanceArray` produces exactly one concrete
instance per leaf index combination — the leaf count is the product of the
range widths and each leaf's `arrayPath` is the corresponding index
vector; a dimension that does not evaluate to a constant range yields an
empty `InstanceArray` placeholder at that point of the recursion (which is
the whole instance name's result only when it is the outermost
dimension). -/
theorem claim_C3_instance_array_shape :
    (∀ (name : String) (params : List (String × Option Int)) (rs : List ConstantRange)
        (path : List Int),
      leafPathsD rs.length (recurseInstanceArray name params (rs.map some) path)
        = (indexVectors rs).map (fun t => path ++ t))
    ∧ (∀ (name : String) (params : List (String × Option Int)) (rs : List ConstantRange)
        (path : List Int),
      (leafPathsD rs.length (recurseInstanceArray name params (rs.map some) path)).length
        = (rs.map ConstantRange.width).prod)
    ∧ (∀ (name : String) (params : List (String × Option Int))
        (dims : List (Option ConstantRange)) (path : List Int),
      recurseInstanceArray name params (none :: dims) path
        = HierSymbol.instArray name [] ⟨0, 0⟩) := by
  refine ⟨fun name params rs path => leafPathsD_recurse name params rs path,
    fun name params rs path => ?_, fun name params dims path => rfl⟩
  rw [leafPathsD_recurse name params rs path, List.length_map, indexVectors_length]

theorem claim_C3_counterexample :
    isEmptyArrayPlaceholder (recurseInstanceArray "x" [] [some ⟨0, 0⟩, none] []) = false
    ∧ elementsOf (recurseInstanceArray "x" [] [some ⟨0, 0⟩, none] [])
        = [HierSymbol.instArray "" [] ⟨0, 0⟩] := ⟨rfl, rfl⟩

theorem claim_C3_witness :
    leafPathsD 2 (recurseInstanceArray "y" [] [some ⟨0, 1⟩, some ⟨2, 3⟩] [])
      = [[0, 2], [0, 3], [1, 2], [1, 3]] := by
  have h := claim_C3_instance_array_shape.1 "y" []
    ([⟨0, 1⟩, ⟨2, 3⟩] : List ConstantRange) []
  rw [show ([some ⟨0, 1⟩, some ⟨2, 3⟩] : List (Option ConstantRange))
      = ([⟨0, 1⟩, ⟨2, 3⟩] : List ConstantRange).map some from rfl]
  rw [show (2 : Nat) = ([⟨0, 1⟩, ⟨2, 3⟩] : List ConstantRange).length from rfl, h]
  decide

theorem leafParamsD_recurse (name : String) (ps : List (String × Option Int)) :
    ∀ dims path q,
      q ∈ leafParamsD dims.length (recurseInstanceArray name ps dims path) → q = ps := by
  intro dims
  induction dims with
  | nil =>
    intro path q hq
    simpa [recurseInstanceArray, leafParamsD] using hq
  | cons dim rest ih =>
    intro path q hq
    cases dim with
    | none => simp [recurseInstanceArray, leafParamsD] at hq
    | some r =>
      simp only [recurseInstanceArray, List.length_cons, leafParamsD, List.mem_flatten,
        List.mem_map] at hq
      obtain ⟨l, ⟨m, ⟨i, _, rfl⟩, rfl⟩, hql⟩ := hq
      rw [leafParamsD_clearName] at hql
      exact ih (path ++ [i]) q hql

/-- C4: all instances created by one instantiation statement are handed
the same once-computed parameter vector (evaluated from the definition's
parameters and the statement's overrides), so every array element observes
identical parameter values, equal to what a per-instance evaluation of the
same overrides would produce. -/
theorem claim_C4_parameter_sharing (defs : List ParamDecl) (assigns : List ParamAssign)
    (instances : List (String × List (Option ConstantRange))) :
    ((instantiateInstances defs assigns instances).1
      = instances.map (fun nd => recurseInstanceArray nd.1
          (evalParamValues defs (resolveParamAssignments defs assigns).1).1 nd.2 []))
    ∧ (∀ nd ∈ instances,
        ∀ q ∈ leafParamsD nd.2.length
            (recurseInstanceArray nd.1
              (evalParamValues defs (resolveParamAssignments defs assigns).1).1 nd.2 []),
          q = (evalParamValues defs (resolveParamAssignments defs assigns).1).1) := by
  refine ⟨rfl, ?_⟩
  intro nd _ q hq
  exact leafParamsD_recurse nd.1 _ nd.2 [] q hq

theorem claim_C4_witness :
    ([("P", some 1)] : List (String × Option Int))
      = (evalParamValues [⟨"P", false, true, some 1⟩]
          (resolveParamAssignments [⟨"P", false, true, some 1⟩] []).1).1 := by
  exact (claim_C4_parameter_sharing [⟨"P", false, true, some 1⟩] []
      [("u", [some ⟨1, 2⟩])]).2 ("u", [some ⟨1, 2⟩]) (by decide) [("P", some 1)] (by decide)

theorem count_singleton_of_ne (b a : DiagCode) (h : b ≠ a) : List.count b [a] = 0 :=
  List.count_eq_zero.mpr (by simp [h])

theorem find_entry_isSome_iff (named : List (String × Option Int × Bool)) (n : String) :
    (named.find? (fun x => x.1 == n)).isSome = true ↔ n ∈ named.map (fun x => x.1) := by
  induction named with
  | nil => simp
  | cons y ys ih =>
    by_cases hy : y.1 = n
    · rw [List.find?_cons_of_pos _ (by simp [hy])]
      simp [hy]
    · rw [List.find?_cons_of_neg _ (by simp [hy])]
      simp only [List.map_cons, List.mem_cons]
      rw [ih]
      constructor
      · exact Or.inr
      · rintro (h | h)
        · exact absurd h.symm hy
        · exact h

theorem markUsed_map_fst (named : List (String × Option Int × Bool)) (n : String) :
    (markUsed named n).map (fun x => x.1) = named.map (fun x => x.1) := by
  unfold markUsed
  rw [List.map_map]
  refine List.map_congr_left (fun x _ => ?_)
  by_cases hx : x.1 = n <;> simp [hx]

theorem leftover_count (named : List (String × Option Int × Bool)) :
    (leftoverNamedDiags named).count DiagCode.ParameterDoesNotExist
      = (named.filter (fun x => x.2.2 == false)).length := by
  unfold leftoverNamedDiags
  induction (named.filter (fun x => x.2.2 == false)) with
  | nil => simp
  | cons y ys ih => simp [List.count_cons, ih]

theorem filter_fst_length (l : List (String × Option Int × Bool)) (q : String → Bool) :
    (l.filter (fun x => q x.1)).length = ((l.map (fun x => x.1)).filter q).length := by
  rw [List.filter_map]
  simp [Function.comp_def]

theorem gather_count_preserved (code : DiagCode)
    (hc1 : code ≠ DiagCode.MixingOrderedAndNamedParams)
    (hc2 : code ≠ DiagCode.DuplicateParamAssignment) :
    ∀ assigns has mode ords named ds,
      (gatherParamAssignments assigns has mode ords named ds).diags.count code
        = ds.count code := by
  intro assigns
  induction assigns with
  | nil => intro has mode ords named ds; simp [gatherParamAssignments]
  | cons pa rest ih =>
    intro has mode ords named ds
    cases pa with
    | ordered e =>
      simp only [gatherParamAssignments]
      by_cases hmix : (has && (ParamAssign.isNamed (ParamAssign.ordered e) == mode)) = true
      · rw [if_pos hmix]
        simp [List.count_append, count_singleton_of_ne _ _ hc1]
      · rw [if_neg hmix]
        exact ih _ _ _ _ _
    | named n e =>
      simp only [gatherParamAssignments]
      by_cases hmix : (has && (ParamAssign.isNamed (ParamAssign.named n e) == mode)) = true
      · rw [if_pos hmix]
        simp [List.count_append, count_singleton_of_ne _ _ hc1]
      · rw [if_neg hmix]
        by_cases hn : n = ""
        · rw [if_pos hn]
          exact ih _ _ _ _ _
        · rw [if_neg hn]
          by_cases hdup : ((named.find? (fun x => x.1 == n)).isSome) = true
          · rw [if_pos hdup, ih _ _ _ _ _]
            simp [List.count_append, count_singleton_of_ne _ _ hc2]
          · rw [if_neg hdup]
            exact ih _ _ _ _ _

theorem gather_named_master :
    ∀ (assigns : List ParamAssign) (has : Bool) (ords : List Int)
      (named : List (String × Option Int × Bool)) (ds : List DiagCode),
      (∀ a ∈ assigns, a.isNamed = true) →
      ((gatherParamAssignments assigns has false ords named ds).orderedMode = false)
      ∧ ((gatherParamAssignments assigns has false ords named ds).namedParams.map
            (fun x => x.1)
          = named.map (fun x => x.1)
            ++ namedNamesDedup assigns (named.map (fun x => x.1)))
      ∧ (∀ x ∈ (gatherParamAssignments assigns has false ords named ds).namedParams,
          x ∈ named ∨ x.2.2 = false)
      ∧ (∀ x ∈ (gatherParamAssignments assigns has false ords named ds).namedParams,
          x ∈ named ∨ ∃ e, ParamAssign.named x.1 e ∈ assigns) := by
  intro assigns
  induction assigns with
  | nil =>
    intro has ords named ds _
    simp [gatherParamAssignments, namedNamesDedup]
  | cons pa rest ih =>
    intro has ords named ds h
    have hpa := h pa (by simp)
    cases pa with
    | ordered e => simp [ParamAssign.isNamed] at hpa
    | named n e =>
      have hrest : ∀ a ∈ rest, a.isNamed = true := fun a ha => h a (by simp [ha])
      have hmix : (has && (ParamAssign.isNamed (ParamAssign.named n e) == false)) = false := by
        simp [ParamAssign.isNamed]
      have hmode : (if has = true then false else false) = false := by cases has <;> rfl
      simp only [gatherParamAssignments, hmix, Bool.false_eq_true, if_false, hmode]
      by_cases hn : n = ""
      · rw [if_pos hn]
        have hih := ih true ords named ds hrest
        refine ⟨hih.1, ?_, hih.2.2.1, ?_⟩
        · rw [hih.2.1]
          have hd : namedNamesDedup (ParamAssign.named n e :: rest) (named.map (fun x => x.1))
              = namedNamesDedup rest (named.map (fun x => x.1)) := by
            simp only [namedNamesDedup]
            rw [if_pos hn]
          rw [hd]
        · intro x hx
          rcases hih.2.2.2 x hx with hx1 | ⟨e1, he1⟩
          · exact Or.inl hx1
          · exact Or.inr ⟨e1, by simp [he1]⟩
      · rw [if_neg hn]
        by_cases hdup : ((named.find? (fun x => x.1 == n)).isSome) = true
        · rw [if_pos hdup]
          have hih := ih true ords named (ds ++ [DiagCode.DuplicateParamAssignment]) hrest
          refine ⟨hih.1, ?_, hih.2.2.1, ?_⟩
          · rw [hih.2.1]
            have hcontains : ((named.map (fun x => x.1)).contains n) = true := by
              simpa using (find_entry_isSome_iff named n).mp hdup
            have hd : namedNamesDedup (ParamAssign.named n e :: rest) (named.map (fun x => x.1))
                = namedNamesDedup rest (named.map (fun x => x.1)) := by
              simp only [namedNamesDedup]
              rw [if_neg hn, if_pos hcontains]
            rw [hd]
          · intro x hx
            rcases hih.2.2.2 x hx with hx1 | ⟨e1, he1⟩
            · exact Or.inl hx1
            · exact Or.inr ⟨e1, by simp [he1]⟩
        · rw [if_neg hdup]
          have hih := ih true ords (named ++ [(n, e, false)]) ds hrest
          have hncontains : ((named.map (fun x => x.1)).contains n) = false := by
            by_cases hc : n ∈ named.map (fun x => x.1)
            · exact absurd ((find_entry_isSome_iff named n).mpr hc) (by simpa using hdup)
            · simpa using hc
          have hncontains2 : ¬ (((named.map (fun x => x.1)).contains n) = true) := by
            rw [hncontains]
            exact Bool.false_ne_true
          refine ⟨hih.1, ?_, ?_, ?_⟩
          · rw [hih.2.1]
            have hd : namedNamesDedup (ParamAssign.named n e :: rest) (named.map (fun x => x.1))
                = n :: namedNamesDedup rest (named.map (fun x => x.1) ++ [n]) := by
              simp only [namedNamesDedup]
              rw [if_neg hn, if_neg hncontains2]
            rw [hd]
            simp
          · intro x hx
            rcases hih.2.2.1 x hx with hx1 | hflag
            · rcases List.mem_append.mp hx1 with hx2 | hx2
              · exact Or.inl hx2
              · refine Or.inr ?_
                have hxe : x = (n, e, false) := by simpa using hx2
                rw [hxe]
            · exact Or.inr hflag
          · intro x hx
            rcases hih.2.2.2 x hx with hx1 | ⟨e1, he1⟩
            · rcases List.mem_append.mp hx1 with hx2 | hx2
              · exact Or.inl hx2
              · have hxe : x = (n, e, false) := by simpa using hx2
                exact Or.inr ⟨e, by simp [hxe]⟩
            · exact Or.inr ⟨e1, by simp [he1]⟩

theorem namedNamesDedup_mem :
    ∀ (assigns : List ParamAssign) (acc : List String) (n : String) (e : Option Int),
      n ≠ "" → ParamAssign.named n e ∈ assigns →
      n ∈ acc ∨ n ∈ namedNamesDedup assigns acc := by
  intro assigns
  induction assigns with
  | nil => intro acc n e _ h; simp at h
  | cons pa rest ih =>
    intro acc n e hn hmem
    rcases List.mem_cons.mp hmem with heq | hmem2
    · subst heq
      by_cases hacc : (acc.contains n) = true
      · exact Or.inl (by simpa using hacc)
      · right
        simp only [namedNamesDedup]
        rw [if_neg hn, if_neg (by simpa using hacc)]
        simp
    · cases pa with
      | ordered e2 =>
        have h1 := ih acc n e hn hmem2
        rcases h1 with h2 | h2
        · exact Or.inl h2
        · right
          simpa [namedNamesDedup] using h2
      | named n2 e2 =>
        by_cases hn2 : n2 = ""
        · rcases ih acc n e hn hmem2 with h2 | h2
          · exact Or.inl h2
          · right
            simp only [namedNamesDedup]
            rw [if_pos hn2]
            exact h2
        · by_cases hc2 : (acc.contains n2) = true
          · rcases ih acc n e hn hmem2 with h2 | h2
            · exact Or.inl h2
            · right
              simp only [namedNamesDedup]
              rw [if_neg hn2, if_pos hc2]
              exact h2
          · rcases ih (acc ++ [n2]) n e hn hmem2 with h2 | h2
            · rcases List.mem_append.mp h2 with h3 | h3
              · exact Or.inl h3
              · right
                have hnn : n = n2 := by simpa using h3
                simp only [namedNamesDedup]
                rw [if_neg hn2, if_neg hc2]
                simp [hnn]
            · right
              simp only [namedNamesDedup]
              rw [if_neg hn2, if_neg hc2]
              simp [h2]

theorem gather_named_start (assigns : List ParamAssign)
    (h : ∀ a ∈ assigns, a.isNamed = true) (hne : assigns ≠ []) :
    ((gatherParamAssignments assigns false true [] [] []).orderedMode = false)
    ∧ ((gatherParamAssignments assigns false true [] [] []).namedParams.map (fun x => x.1)
        = namedNamesDedup assigns [])
    ∧ (∀ x ∈ (gatherParamAssignments assigns false true [] [] []).namedParams, x.2.2 = false)
    ∧ (∀ x ∈ (gatherParamAssignments assigns false true [] [] []).namedParams,
        ∃ e, ParamAssign.named x.1 e ∈ assigns) := by
  cases assigns with
  | nil => exact absurd rfl hne
  | cons pa rest =>
    have hpa := h pa (by simp)
    cases pa with
    | ordered e => simp [ParamAssign.isNamed] at hpa
    | named n e =>
      have hrest : ∀ a ∈ rest, a.isNamed = true := fun a ha => h a (by simp [ha])
      have hmix : (false && (ParamAssign.isNamed (ParamAssign.named n e) == true)) = false := by
        simp
      simp only [gatherParamAssignments, hmix, Bool.false_eq_true, if_false]
      by_cases hn : n = ""
      · rw [if_pos hn]
        have hm := gather_named_master rest true [] [] [] hrest
        refine ⟨hm.1, ?_, ?_, ?_⟩
        · rw [hm.2.1]
          have hd : namedNamesDedup (ParamAssign.named n e :: rest) []
              = namedNamesDedup rest [] := by
            simp only [namedNamesDedup]
            rw [if_pos hn]
          rw [hd]
          simp
        · intro x hx
          rcases hm.2.2.1 x hx with h1 | h1
          · simp at h1
          · exact h1
        · intro x hx
          rcases hm.2.2.2 x hx with h1 | ⟨e1, he1⟩
          · simp at h1
          · exact ⟨e1, by simp [he1]⟩
      · rw [if_neg hn]
        rw [if_neg (by simp :
          ¬ ((List.find? (fun x => x.1 == n)
              ([] : List (String × Option Int × Bool))).isSome = true))]
        simp only [List.nil_append]
        have hm := gather_named_master rest true [] [(n, e, false)] [] hrest
        refine ⟨hm.1, ?_, ?_, ?_⟩
        · rw [hm.2.1]
          have hd : namedNamesDedup (ParamAssign.named n e :: rest) []
              = n :: namedNamesDedup rest [n] := by
            simp only [namedNamesDedup]
            rw [if_neg hn, if_neg (by simp : ¬ ((([] : List String).contains n) = true))]
            simp
          rw [hd]
          simp
        · intro x hx
          rcases hm.2.2.1 x hx with h1 | h1
          · have hxe : x = (n, e, false) := by simpa using h1
            rw [hxe]
          · exact h1
        · intro x hx
          rcases hm.2.2.2 x hx with h1 | ⟨e1, he1⟩
          · have hxe : x = (n, e, false) := by simpa using h1
            exact ⟨e, by simp [hxe]⟩
          · exact ⟨e1, by simp [he1]⟩

theorem matchNamed_diags_mono :
    ∀ (defs : List ParamDecl) (named : List (String × Option Int × Bool))
      (acc : List (String × Int)) (ds : List DiagCode),
      ∃ t, (matchNamedParams defs named acc ds).2.2 = ds ++ t
        ∧ ∀ d ∈ t, d = DiagCode.AssignedToLocalPortParam
            ∨ d = DiagCode.AssignedToLocalBodyParam := by
  intro defs
  induction defs with
  | nil =>
    intro named acc ds
    exact ⟨[], by simp [matchNamedParams], by simp⟩
  | cons p ps ih =>
    intro named acc ds
    simp only [matchNamedParams]
    split
    · exact ih named acc ds
    · rename_i entry hf
      by_cases hl : p.isLocalParam = true
      · rw [if_pos hl]
        obtain ⟨t, ht, hmem⟩ := ih (markUsed named p.name) acc
          (ds ++ [if p.isPortParam = true then DiagCode.AssignedToLocalPortParam
                  else DiagCode.AssignedToLocalBodyParam])
        refine ⟨(if p.isPortParam = true then DiagCode.AssignedToLocalPortParam
                 else DiagCode.AssignedToLocalBodyParam) :: t, ?_, ?_⟩
        · rw [ht]
          simp
        · intro d hd
          rcases List.mem_cons.mp hd with h1 | h1
          · subst h1
            by_cases hp : p.isPortParam = true
            · rw [if_pos hp]; exact Or.inl rfl
            · rw [if_neg hp]; exact Or.inr rfl
          · exact hmem d h1
      · rw [if_neg hl]
        split
        · exact ih (markUsed named p.name) acc ds
        · exact ih (markUsed named p.name) _ ds

theorem matchNamed_unused_filter :
    ∀ (defs : List ParamDecl) (named : List (String × Option Int × Bool))
      (acc : List (String × Int)) (ds : List DiagCode),
      ((matchNamedParams defs named acc ds).2.1.filter (fun x => x.2.2 == false)).length
        = (named.filter (fun x => x.2.2 == false
            && !((defs.map (fun q => q.name)).contains x.1))).length := by
  intro defs
  induction defs with
  | nil =>
    intro named acc ds
    simp only [matchNamedParams, List.map_nil]
    congr 1
    refine List.filter_congr (fun x _ => ?_)
    simp
  | cons p ps ih =>
    intro named acc ds
    have key : ∀ (acc2 : List (String × Int)) (ds2 : List DiagCode),
        ((matchNamedParams ps (markUsed named p.name) acc2 ds2).2.1.filter
            (fun x => x.2.2 == false)).length
          = (named.filter (fun x => x.2.2 == false
              && !(((p :: ps).map (fun q => q.name)).contains x.1))).length := by
      intro acc2 ds2
      rw [ih (markUsed named p.name) acc2 ds2]
      unfold markUsed
      rw [List.filter_map, List.length_map]
      congr 1
      refine List.filter_congr (fun x hx => ?_)
      by_cases hxp : x.1 = p.name
      · simp [hxp]
      · simp [hxp, Function.comp_def]
    simp only [matchNamedParams]
    split
    · rename_i hf
      rw [ih named acc ds]
      congr 1
      refine List.filter_congr (fun x hx => ?_)
      have hxname := List.find?_eq_none.mp hf x hx
      have hne : x.1 ≠ p.name := by simpa using hxname
      simp [hne]
    · rename_i entry hf
      by_cases hl : p.isLocalParam = true
      · rw [if_pos hl]
        exact key acc _
      · rw [if_neg hl]
        split
        · exact key acc ds
        · exact key _ ds

theorem markUsed_names_mem (named : List (String × Option Int × Bool)) (n m : String) :
    (∃ y ∈ markUsed named n, y.1 = m) → ∃ y ∈ named, y.1 = m := by
  rintro ⟨y, hy, hym⟩
  unfold markUsed at hy
  obtain ⟨y0, hy0, hfy⟩ := List.mem_map.mp hy
  refine ⟨y0, hy0, ?_⟩
  by_cases hq : y0.1 = n
  · rw [← hym, ← hfy]
    simp [hq]
  · rw [← hym, ← hfy]
    simp [hq]

theorem markUsed_names_mem_rev (named : List (String × Option Int × Bool)) (n m : String) :
    (∃ y ∈ named, y.1 = m) → ∃ y ∈ markUsed named n, y.1 = m := by
  rintro ⟨y, hy, hym⟩
  unfold markUsed
  by_cases hq : y.1 = n
  · exact ⟨(y.1, y.2.1, true), List.mem_map.mpr ⟨y, hy, by simp [hq]⟩, hym⟩
  · exact ⟨y, List.mem_map.mpr ⟨y, hy, by simp [hq]⟩, hym⟩

theorem matchNamed_overrides :
    ∀ (defs : List ParamDecl) (named : List (String × Option Int × Bool))
      (acc : List (String × Int)) (ds : List DiagCode) (x : String × Int),
      x ∈ (matchNamedParams defs named acc ds).1 →
      x ∈ acc ∨ ((∃ y ∈ named, y.1 = x.1)
        ∧ ∃ q ∈ defs, q.isLocalParam = false ∧ q.name = x.1) := by
  intro defs
  induction defs with
  | nil =>
    intro named acc ds x hx
    exact Or.inl (by simpa [matchNamedParams] using hx)
  | cons p ps ih =>
    intro named acc ds x hx
    simp only [matchNamedParams] at hx
    split at hx
    · rcases ih named acc ds x hx with h1 | ⟨hy, q, hq, hql⟩
      · exact Or.inl h1
      · exact Or.inr ⟨hy, q, by simp [hq], hql⟩
    · rename_i entry hf
      have hentry_mem : entry ∈ named := List.mem_of_find?_eq_some hf
      have hentry_name : entry.1 = p.name := by
        have := List.find?_some hf
        simpa using this
      by_cases hl : p.isLocalParam = true
      · rw [if_pos hl] at hx
        rcases ih _ acc _ x hx with h1 | ⟨hy, q, hq, hql⟩
        · exact Or.inl h1
        · exact Or.inr ⟨markUsed_names_mem named p.name x.1 hy, q, by simp [hq], hql⟩
      · rw [if_neg hl] at hx
        split at hx
        · rcases ih _ acc _ x hx with h1 | ⟨hy, q, hq, hql⟩
          · exact Or.inl h1
          · exact Or.inr ⟨markUsed_names_mem named p.name x.1 hy, q, by simp [hq], hql⟩
        · rename_i v hv
          rcases ih _ _ _ x hx with h1 | ⟨hy, q, hq, hql⟩
          · rcases List.mem_append.mp h1 with h2 | h2
            · exact Or.inl h2
            · have hxe : x = (p.name, v) := by simpa using h2
              refine Or.inr ⟨⟨entry, hentry_mem, by rw [hentry_name, hxe]⟩,
                p, by simp, ?_, by rw [hxe]⟩
              simpa using hl
          · exact Or.inr ⟨markUsed_names_mem named p.name x.1 hy, q, by simp [hq], hql⟩

theorem matchNamed_local_diag :
    ∀ (defs : List ParamDecl) (named : List (String × Option Int × Bool))
      (acc : List (String × Int)) (ds : List DiagCode) (p : ParamDecl),
      p ∈ defs → p.isLocalParam = true → (∃ y ∈ named, y.1 = p.name) →
      ((defs.map (fun q => q.name)).Nodup) →
      (if p.isPortParam = true then DiagCode.AssignedToLocalPortParam
       else DiagCode.AssignedToLocalBodyParam) ∈ (matchNamedParams defs named acc ds).2.2 := by
  intro defs
  induction defs with
  | nil => intro named acc ds p hp _ _ _; simp at hp
  | cons q ps ih =>
    intro named acc ds p hp hl hex hnd
    rcases List.mem_cons.mp hp with rfl | hp2
    · obtain ⟨y, hy, hyname⟩ := hex
      have hfind : (named.find? (fun x => x.1 == p.name)).isSome = true := by
        rw [find_entry_isSome_iff]
        exact List.mem_map.mpr ⟨y, hy, hyname⟩
      simp only [matchNamedParams]
      split
      · rename_i hnone
        rw [hnone] at hfind
        simp at hfind
      · rename_i entry hf
        rw [if_pos hl]
        obtain ⟨t, ht, _⟩ := matchNamed_diags_mono ps (markUsed named p.name) acc
          (ds ++ [if p.isPortParam = true then DiagCode.AssignedToLocalPortParam
                  else DiagCode.AssignedToLocalBodyParam])
        rw [ht]
        simp
    · have hq_ne : q.name ≠ p.name := by
        intro hqp
        simp only [List.map_cons, List.nodup_cons] at hnd
        exact hnd.1 (by rw [hqp]; exact List.mem_map.mpr ⟨p, hp2, rfl⟩)
      have hnd2 : (ps.map (fun r => r.name)).Nodup := by
        simp only [List.map_cons, List.nodup_cons] at hnd
        exact hnd.2
      simp only [matchNamedParams]
      split
      · exact ih named acc ds p hp2 hl hex hnd2
      · rename_i entry hf
        have hex2 : ∃ y ∈ markUsed named q.name, y.1 = p.name :=
          markUsed_names_mem_rev named q.name p.name hex
      
        by_cases hql : q.isLocalParam = true
        · rw [if_pos hql]
          exact ih _ _ _ p hp2 hl hex2 hnd2
        · rw [if_neg hql]
          split
          · exact ih _ _ _ p hp2 hl hex2 hnd2
          · exact ih _ _ _ p hp2 hl hex2 hnd2

theorem matchOrdered_diags :
    ∀ (defs : List ParamDecl) (ords : List Int) (acc : List (String × Int)),
      (matchOrderedParams defs ords acc).2 = []
      ∨ (matchOrderedParams defs ords acc).2 = [DiagCode.TooManyParamAssignments] := by
  intro defs
  induction defs with
  | nil =>
    intro ords acc
    by_cases h : ords.isEmpty = true <;> simp [matchOrderedParams, h]
  | cons p ps ih =>
    intro ords acc
    cases ords with
    | nil => simp [matchOrderedParams]
    | cons e os =>
      simp only [matchOrderedParams]
      by_cases h : p.isLocalParam = true
      · rw [if_pos h]
        exact ih _ _
      · rw [if_neg h]
        exact ih _ _

theorem matchOrdered_overrides :
    ∀ (defs : List ParamDecl) (ords : List Int) (acc : List (String × Int)) (x : String × Int),
      x ∈ (matchOrderedParams defs ords acc).1 →
      x ∈ acc ∨ ∃ q ∈ defs, q.isLocalParam = false ∧ q.name = x.1 := by
  intro defs
  induction defs with
  | nil =>
    intro ords acc x hx
    by_cases h : ords.isEmpty = true <;> simp [matchOrderedParams, h] at hx <;>
      exact Or.inl hx
  | cons p ps ih =>
    intro ords acc x hx
    cases ords with
    | nil =>
      simp only [matchOrderedParams] at hx
      exact Or.inl hx
    | cons e os =>
      simp only [matchOrderedParams] at hx
      by_cases h : p.isLocalParam = true
      · rw [if_pos h] at hx
        rcases ih _ acc x hx with h1 | ⟨q, hq, hqc⟩
        · exact Or.inl h1
        · exact Or.inr ⟨q, by simp [hq], hqc⟩
      · rw [if_neg h] at hx
        rcases ih _ _ x hx with h1 | ⟨q, hq, hqc⟩
        · rcases List.mem_append.mp h1 with h2 | h2
          · exact Or.inl h2
          · have hxe : x = (p.name, e) := by simpa using h2
            refine Or.inr ⟨p, by simp, by simpa using h, by rw [hxe]⟩
        · exact Or.inr ⟨q, by simp [hq], hqc⟩

theorem evalParamValues_entry :
    ∀ (defs : List ParamDecl) (overrides : List (String × Int)) (p : ParamDecl),
      p ∈ defs → (∀ x ∈ overrides, x.1 ≠ p.name) →
      (p.name, p.defaultValue) ∈ (evalParamValues defs overrides).1 := by
  intro defs
  induction defs with
  | nil => intro overrides p hp _; simp at hp
  | cons q ps ih =>
    intro overrides p hp hov
    rcases List.mem_cons.mp hp with rfl | hp2
    · have hfind : overrides.find? (fun x => x.1 == p.name) = none := by
        apply List.find?_eq_none.mpr
        intro x hx
        simpa using hov x hx
      simp only [evalParamValues, hfind]
      by_cases hc : (!p.isLocalParam && p.isPortParam && p.defaultValue.isNone) = true
      · rw [if_pos hc]
        have hdef : p.defaultValue = none := by
          simp only [Bool.and_eq_true] at hc
          exact Option.isNone_iff_eq_none.mp hc.2
        simp [hdef]
      · rw [if_neg hc]
        simp
    · have hi := ih overrides p hp2 hov
      simp only [evalParamValues]
      cases hf : overrides.find? (fun x => x.1 == q.name) with
      | some ov => simp [hi]
      | none =>
        by_cases hc : (!q.isLocalParam && q.isPortParam && q.defaultValue.isNone) = true
        · rw [if_pos hc]
          simp [hi]
        · rw [if_neg hc]
          simp [hi]

theorem gather_ordered_spec :
    ∀ (assigns : List ParamAssign) (has : Bool) (ords : List Int)
      (named : List (String × Option Int × Bool)) (ds : List DiagCode),
      (∀ a ∈ assigns, a.isNamed = false) →
      gatherParamAssignments assigns has true ords named ds
        = ⟨true, ords ++ orderedExprs assigns, named, ds⟩ := by
  intro assigns
  induction assigns with
  | nil => intro has ords named ds _; simp [gatherParamAssignments, orderedExprs]
  | cons pa rest ih =>
    intro has ords named ds h
    have hpa := h pa (by simp)
    cases pa with
    | named n e => simp [ParamAssign.isNamed] at hpa
    | ordered e =>
      have hrest : ∀ a ∈ rest, a.isNamed = false := fun a ha => h a (by simp [ha])
      have hmix : (has && (ParamAssign.isNamed (ParamAssign.ordered e) == true)) = false := by
        simp [ParamAssign.isNamed]
      have hmode : (if has = true then true else true) = true := by cases has <;> rfl
      simp only [gatherParamAssignments, hmix, Bool.false_eq_true, if_false, hmode]
      rw [ih true (ords ++ [e]) named ds hrest]
      simp [orderedExprs]

/-- C5: a named parameter assignment whose name matches no declared
parameter of the definition produces exactly one `ParameterDoesNotExist`
diagnostic (one per distinct unmatched name), and the instance is still
created with every unmatched parameter holding its declared default value;
in particular `m #(.Q(2)) u()` against `module m #(parameter int P = 1)`
yields one `ParameterDoesNotExist` for `Q` and parameter values `P = 1`. -/
theorem claim_C5_parameter_does_not_exist :
    (resolveParamAssignments [⟨"P", false, true, some 1⟩] [ParamAssign.named "Q" (some 2)]
        = ([], [DiagCode.ParameterDoesNotExist])
      ∧ (evalParamValues [⟨"P", false, true, some 1⟩]
          (resolveParamAssignments [⟨"P", false, true, some 1⟩]
            [ParamAssign.named "Q" (some 2)]).1).1 = [("P", some 1)])
    ∧ (∀ (defs : List ParamDecl) (assigns : List ParamAssign),
        assigns ≠ [] → (∀ a ∈ assigns, a.isNamed = true) →
        (((resolveParamAssignments defs assigns).2.count DiagCode.ParameterDoesNotExist)
          = ((namedNamesDedup assigns []).filter
              (fun n => !((defs.map (fun p => p.name)).contains n))).length)
        ∧ (∀ p ∈ defs, (∀ a ∈ assigns, a.targetName ≠ some p.name) →
            (p.name, p.defaultValue) ∈ (evalParamValues defs
              (resolveParamAssignments defs assigns).1).1)) := by
  refine ⟨⟨by decide, by decide⟩, ?_⟩
  intro defs assigns hne hnamed
  have hg := gather_named_start assigns hnamed hne
  have hres : resolveParamAssignments defs assigns
      = ((matchNamedParams defs
            (gatherParamAssignments assigns false true [] [] []).namedParams [] []).1,
         (gatherParamAssignments assigns false true [] [] []).diags
           ++ (matchNamedParams defs
                (gatherParamAssignments assigns false true [] [] []).namedParams [] []).2.2
           ++ leftoverNamedDiags (matchNamedParams defs
                (gatherParamAssignments assigns false true [] [] []).namedParams [] []).2.1) := by
    simp only [resolveParamAssignments]
    rw [hg.1]
    simp
  constructor
  · rw [hres]
    simp only [List.count_append]
    have h1 : (gatherParamAssignments assigns false true [] [] []).diags.count
        DiagCode.ParameterDoesNotExist = 0 := by
      rw [gather_count_preserved DiagCode.ParameterDoesNotExist (by decide) (by decide)]
      simp
    have h2 : (matchNamedParams defs
        (gatherParamAssignments assigns false true [] [] []).namedParams [] []).2.2.count
          DiagCode.ParameterDoesNotExist = 0 := by
      obtain ⟨t, ht, hmem⟩ := matchNamed_diags_mono defs
        (gatherParamAssignments assigns false true [] [] []).namedParams [] []
      rw [ht]
      simp only [List.nil_append]
      apply List.count_eq_zero.mpr
      intro hc
      rcases hmem _ hc with h | h <;> simp at h
    rw [h1, h2, leftover_count, matchNamed_unused_filter]
    simp only [Nat.zero_add]
    have hflt : ((gatherParamAssignments assigns false true [] [] []).namedParams.filter
          (fun x => x.2.2 == false && !((defs.map (fun q => q.name)).contains x.1)))
        = ((gatherParamAssignments assigns false true [] [] []).namedParams.filter
          (fun x => !((defs.map (fun q => q.name)).contains x.1))) := by
      refine List.filter_congr (fun x hx => ?_)
      have := hg.2.2.1 x hx
      simp [this]
    rw [hflt, filter_fst_length _ (fun n => !((defs.map (fun q => q.name)).contains n)),
      hg.2.1]
  · intro p hp htarget
    have hnov : ∀ x ∈ (resolveParamAssignments defs assigns).1, x.1 ≠ p.name := by
      intro x hx
      rw [hres] at hx
      rcases matchNamed_overrides defs _ [] [] x hx with h1 | ⟨⟨y, hy, hyx⟩, _⟩
      · simp at h1
      · obtain ⟨e1, he1⟩ := hg.2.2.2 y hy
        intro hxp
        have := htarget (ParamAssign.named y.1 e1) he1
        rw [hyx, hxp] at this
        exact this rfl
    exact evalParamValues_entry defs _ p hp hnov

theorem claim_C5_witness :
    ((resolveParamAssignments [⟨"P", false, true, some 1⟩]
        [ParamAssign.named "Q" (some 2)]).2.count DiagCode.ParameterDoesNotExist = 1)
    ∧ ("P", some 1) ∈ (evalParamValues [⟨"P", false, true, some 1⟩]
        (resolveParamAssignments [⟨"P", false, true, some 1⟩]
          [ParamAssign.named "Q" (some 2)]).1).1 := by
  have h := claim_C5_parameter_does_not_exist.2 [⟨"P", false, true, some 1⟩]
    [ParamAssign.named "Q" (some 2)] (by decide) (by decide)
  constructor
  · rw [h.1]
    decide
  · exact h.2 ⟨"P", false, true, some 1⟩ (by decide) (by decide)

/-- C6 (amended): in the named assignment form, an assignment targeting a
localparam of the definition produces an `AssignedToLocalPortParam` (port)
or `AssignedToLocalBodyParam` (body) diagnostic and the localparam keeps
its declared default; in the ordered form, localparams are skipped during
matching without consuming an assignment, so no `AssignedToLocal*`
diagnostic is ever produced there and localparams are likewise never
overridden (surplus ordered assignments yield `TooManyParamAssignments`
instead). -/
theorem claim_C6_localparam_assignments :
    (∀ (defs : List ParamDecl) (assigns : List ParamAssign) (p : ParamDecl),
      (∀ a ∈ assigns, a.isNamed = true) → p ∈ defs → p.isLocalParam = true →
      ((defs.map (fun q => q.name)).Nodup) → p.name ≠ "" →
      (∃ a ∈ assigns, a.targetName = some p.name) →
      ((if p.isPortParam = true then DiagCode.AssignedToLocalPortParam
        else DiagCode.AssignedToLocalBodyParam) ∈ (resolveParamAssignments defs assigns).2
       ∧ (∀ x ∈ (resolveParamAssignments defs assigns).1, x.1 ≠ p.name)
       ∧ (p.name, p.defaultValue) ∈ (evalParamValues defs
            (resolveParamAssignments defs assigns).1).1))
    ∧ (∀ (defs : List ParamDecl) (assigns : List ParamAssign),
      (∀ a ∈ assigns, a.isNamed = false) →
      (DiagCode.AssignedToLocalPortParam ∉ (resolveParamAssignments defs assigns).2
       ∧ DiagCode.AssignedToLocalBodyParam ∉ (resolveParamAssignments defs assigns).2
       ∧ (∀ p ∈ defs, p.isLocalParam = true → ((defs.map (fun q => q.name)).Nodup) →
           (∀ x ∈ (resolveParamAssignments defs assigns).1, x.1 ≠ p.name)
           ∧ (p.name, p.defaultValue) ∈ (evalParamValues defs
                (resolveParamAssignments defs assigns).1).1))) := by
  constructor
  · intro defs assigns p hnamed hp hl hnd hpname hex
    have hne : assigns ≠ [] := by
      obtain ⟨a, ha, _⟩ := hex
      intro h0
      rw [h0] at ha
      simp at ha
    have hg := gather_named_start assigns hnamed hne
    have hres : resolveParamAssignments defs assigns
        = ((matchNamedParams defs
              (gatherParamAssignments assigns false true [] [] []).namedParams [] []).1,
           (gatherParamAssignments assigns false true [] [] []).diags
             ++ (matchNamedParams defs
                  (gatherParamAssignments assigns false true [] [] []).namedParams [] []).2.2
             ++ leftoverNamedDiags (matchNamedParams defs
                  (gatherParamAssignments assigns false true [] [] []).namedParams [] []).2.1) := by
      simp only [resolveParamAssignments]
      rw [hg.1]
      simp
    obtain ⟨a, ha, hat⟩ := hex
    obtain ⟨ea, haeq⟩ : ∃ ea, a = ParamAssign.named p.name ea := by
      cases a with
      | ordered e0 => simp [ParamAssign.targetName] at hat
      | named n0 e0 =>
        refine ⟨e0, ?_⟩
        have : n0 = p.name := by simpa [ParamAssign.targetName] using hat
        rw [this]
    have hmemassign : ParamAssign.named p.name ea ∈ assigns := by rw [← haeq]; exact ha
    have hdedup : p.name ∈ namedNamesDedup assigns [] := by
      rcases namedNamesDedup_mem assigns [] p.name ea hpname hmemassign with h0 | h0
      · simp at h0
      · exact h0
    have hentry : ∃ y ∈ (gatherParamAssignments assigns false true [] [] []).namedParams,
        y.1 = p.name := by
      rw [← hg.2.1] at hdedup
      obtain ⟨y, hy, hyname⟩ := List.mem_map.mp hdedup
      exact ⟨y, hy, hyname⟩
    have hnov : ∀ x ∈ (resolveParamAssignments defs assigns).1, x.1 ≠ p.name := by
      intro x hx
      rw [hres] at hx
      rcases matchNamed_overrides defs _ [] [] x hx with h1 | ⟨_, q, hq, hql, hqn⟩
      · simp at h1
      · intro hxp
        have hqp : q = p := List.inj_on_of_nodup_map hnd hq hp (by rw [hqn, hxp])
        rw [hqp, hl] at hql
        simp at hql
    refine ⟨?_, hnov, evalParamValues_entry defs _ p hp hnov⟩
    rw [hres]
    have := matchNamed_local_diag defs
      (gatherParamAssignments assigns false true [] [] []).namedParams [] [] p hp hl hentry hnd
    simp only [List.mem_append]
    exact Or.inl (Or.inr this)
  · intro defs assigns hordered
    have hres : resolveParamAssignments defs assigns
        = ((matchOrderedParams defs (orderedExprs assigns) []).1,
           [] ++ (matchOrderedParams defs (orderedExprs assigns) []).2) := by
      simp only [resolveParamAssignments]
      rw [gather_ordered_spec assigns false [] [] [] hordered]
      simp
    have hdiags := matchOrdered_diags defs (orderedExprs assigns) []
    have hnotin : ∀ c, c ≠ DiagCode.TooManyParamAssignments →
        c ∉ (resolveParamAssignments defs assigns).2 := by
      intro c hc
      rw [hres]
      simp only [List.nil_append]
      rcases hdiags with h0 | h0 <;> rw [h0] <;> simp [hc]
    refine ⟨hnotin _ (by decide), hnotin _ (by decide), ?_⟩
    intro p hp hl hnd
    have hnov : ∀ x ∈ (resolveParamAssignments defs assigns).1, x.1 ≠ p.name := by
      intro x hx
      rw [hres] at hx
      rcases matchOrdered_overrides defs _ [] x hx with h1 | ⟨q, hq, hql, hqn⟩
      · simp at h1
      · intro hxp
        have hqp : q = p := List.inj_on_of_nodup_map hnd hq hp (by rw [hqn, hxp])
        rw [hqp, hl] at hql
        simp at hql
    exact ⟨hnov, evalParamValues_entry defs _ p hp hnov⟩

theorem claim_C6_counterexample :
    resolveParamAssignments [⟨"L", true, true, some 5⟩] [ParamAssign.ordered 7]
      = ([], [DiagCode.TooManyParamAssignments])
    ∧ DiagCode.AssignedToLocalPortParam
        ∉ (resolveParamAssignments [⟨"L", true, true, some 5⟩] [ParamAssign.ordered 7]).2
    ∧ DiagCode.AssignedToLocalBodyParam
        ∉ (resolveParamAssignments [⟨"L", true, true, some 5⟩] [ParamAssign.ordered 7]).2
    ∧ (evalParamValues [⟨"L", true, true, some 5⟩]
        (resolveParamAssignments [⟨"L", true, true, some 5⟩]
          [ParamAssign.ordered 7]).1).1 = [("L", some 5)] := by
  refine ⟨by decide, by decide, by decide, by decide⟩

theorem claim_C6_witness :
    DiagCode.AssignedToLocalPortParam ∈ (resolveParamAssignments
      [⟨"L", true, true, some 5⟩] [ParamAssign.named "L" (some 7)]).2
    ∧ ("L", some 5) ∈ (evalParamValues [⟨"L", true, true, some 5⟩]
        (resolveParamAssignments [⟨"L", true, true, some 5⟩]
          [ParamAssign.named "L" (some 7)]).1).1 := by
  have h := claim_C6_localparam_assignments.1 [⟨"L", true, true, some 5⟩]
    [ParamAssign.named "L" (some 7)] ⟨"L", true, true, some 5⟩
    (by decide) (by decide) (by decide) (by decide) (by decide)
    ⟨ParamAssign.named "L" (some 7), by decide, by decide⟩
  exact ⟨by simpa using h.1, h.2.2⟩

theorem addImplicitNets_spec (netType : NetType) :
    ∀ (ts seen : List String) (acc : List NetSymbol),
      addImplicitNetsForTokens netType ts seen acc
        = (seen ++ dedupFirst ts seen,
           acc ++ (dedupFirst ts seen).map (fun n => ⟨n, netType, "logic"⟩)) := by
  intro ts
  induction ts with
  | nil => intro seen acc; simp [addImplicitNetsForTokens, dedupFirst]
  | cons t ts ih =>
    intro seen acc
    simp only [addImplicitNetsForTokens, dedupFirst]
    by_cases hc : (seen.contains t) = true
    · rw [if_pos hc, if_pos hc, ih]
    · rw [if_neg hc, if_neg hc, ih]
      simp

theorem dedupFirst_append :
    ∀ (xs ys seen : List String),
      dedupFirst (xs ++ ys) seen
        = dedupFirst xs seen ++ dedupFirst ys (seen ++ dedupFirst xs seen) := by
  intro xs
  induction xs with
  | nil => intro ys seen; simp [dedupFirst]
  | cons x xs ih =>
    intro ys seen
    simp only [List.cons_append, dedupFirst, List.append_eq]
    by_cases hc : (seen.contains x) = true
    · rw [if_pos hc, if_pos hc, ih]
    · rw [if_neg hc, if_neg hc, ih]
      simp

theorem implicitNetsConns_spec (netType : NetType) :
    ∀ (conns : List (Option (List String))) (seen : List String) (acc : List NetSymbol),
      implicitNetsForConnections netType conns seen acc
        = (seen ++ dedupFirst (connectionTokens conns) seen,
           acc ++ (dedupFirst (connectionTokens conns) seen).map
             (fun n => ⟨n, netType, "logic"⟩)) := by
  intro conns
  induction conns with
  | nil => intro seen acc; simp [implicitNetsForConnections, connectionTokens, dedupFirst]
  | cons c cs ih =>
    intro seen acc
    cases c with
    | none =>
      simp only [implicitNetsForConnections]
      rw [ih]
      have hct : connectionTokens (none :: cs) = connectionTokens cs := by
        simp [connectionTokens]
      rw [hct]
    | some ts =>
      simp only [implicitNetsForConnections]
      rw [addImplicitNets_spec, ih]
      have hct : connectionTokens (some ts :: cs) = ts ++ connectionTokens cs := by
        simp [connectionTokens]
      rw [hct, dedupFirst_append]
      simp

theorem implicitNets_fold_spec (netType : NetType) (hne : netType.isError = false) :
    ∀ (instances : List (List (Option (List String)))) (seen : List String)
      (acc : List NetSymbol),
      instances.foldl (fun st conns => createImplicitNets conns netType st.1 st.2) (seen, acc)
        = (seen ++ dedupFirst (allConnectionTokens instances) seen,
           acc ++ (dedupFirst (allConnectionTokens instances) seen).map
             (fun n => ⟨n, netType, "logic"⟩)) := by
  intro instances
  induction instances with
  | nil => intro seen acc; simp [allConnectionTokens, dedupFirst]
  | cons i is ih =>
    intro seen acc
    have hstep : createImplicitNets i netType seen acc
        = (seen ++ dedupFirst (connectionTokens i) seen,
           acc ++ (dedupFirst (connectionTokens i) seen).map
             (fun n => ⟨n, netType, "logic"⟩)) := by
      unfold createImplicitNets
      rw [if_neg (by rw [hne]; exact Bool.false_ne_true)]
      exact implicitNetsConns_spec netType i seen acc
    rw [List.foldl_cons, hstep, ih]
    have hall : allConnectionTokens (i :: is) = connectionTokens i ++ allConnectionTokens is := by
      simp [allConnectionTokens]
    rw [hall, dedupFirst_append]
    simp

theorem dedupFirst_count :
    ∀ (l seen : List String) (n : String),
      (dedupFirst l seen).count n = if n ∈ l ∧ n ∉ seen then 1 else 0 := by
  intro l
  induction l with
  | nil => intro seen n; simp [dedupFirst]
  | cons t ts ih =>
    intro seen n
    simp only [dedupFirst]
    by_cases hc : (seen.contains t) = true
    · have htseen : t ∈ seen := by simpa using hc
      rw [if_pos hc, ih]
      by_cases h1 : n ∈ ts ∧ n ∉ seen
      · rw [if_pos h1, if_pos ⟨List.mem_cons_of_mem _ h1.1, h1.2⟩]
      · rw [if_neg h1, if_neg ?_]
        rintro ⟨h2, h3⟩
        rcases List.mem_cons.mp h2 with rfl | h4
        · exact h3 htseen
        · exact h1 ⟨h4, h3⟩
    · have htseen : t ∉ seen := by simpa using hc
      rw [if_neg hc]
      rw [List.count_cons, ih]
      by_cases hnt : n = t
      · subst hnt
        have hno : ¬(n ∈ ts ∧ n ∉ seen ++ [n]) := by
          rintro ⟨_, h2⟩
          exact h2 (by simp)
        rw [if_neg hno,
          if_pos (show n ∈ n :: ts ∧ n ∉ seen from ⟨List.mem_cons_self n ts, htseen⟩)]
        simp
      · have hbeq : (t == n) = false := by
          simp only [beq_eq_false_iff_ne]
          exact fun h => hnt h.symm
        rw [hbeq]
        simp only [Bool.false_eq_true, if_false, Nat.add_zero]
        by_cases h1 : n ∈ ts ∧ n ∉ seen ++ [t]
        · have h2 : n ∈ t :: ts ∧ n ∉ seen :=
            ⟨List.mem_cons_of_mem _ h1.1, fun h3 => h1.2 (by simp [h3])⟩
          rw [if_pos h1, if_pos h2]
        · have h2 : ¬(n ∈ t :: ts ∧ n ∉ seen) := by
            rintro ⟨h3, h4⟩
            rcases List.mem_cons.mp h3 with rfl | h5
            · exact hnt rfl
            · exact h1 ⟨h5, by simp [h4, hnt]⟩
          rw [if_neg h1, if_neg h2]

/-- C7: per instantiation statement, each distinct identifier that fails
to resolve inside a port connection expression yields exactly one `Net`
symbol whose net type is the scope's default nettype and whose data type
is `logic`; with an error default nettype (`` `default_nettype none ``) no
implicit nets are created at all. -/
theorem claim_C7_implicit_nets (netType : NetType)
    (instances : List (List (Option (List String)))) :
    (netType.isError = false →
      (implicitNetsForStatement instances netType
          = (dedupFirst (allConnectionTokens instances) []).map
              (fun n => ⟨n, netType, "logic"⟩))
      ∧ ((implicitNetsForStatement instances netType).map (fun net => net.name)
          = dedupFirst (allConnectionTokens instances) [])
      ∧ (∀ n : String, ((implicitNetsForStatement instances netType).map
            (fun net => net.name)).count n
          = if n ∈ allConnectionTokens instances then 1 else 0))
    ∧ (netType.isError = true → implicitNetsForStatement instances netType = [])
    ∧ (∀ net ∈ implicitNetsForStatement instances netType,
        net.netType = netType ∧ net.dataType = "logic") := by
  have herrcase : netType.isError = true → implicitNetsForStatement instances netType = [] := by
    intro herr
    unfold implicitNetsForStatement
    have hfix : ∀ (inst2 : List (List (Option (List String)))) (st : List String × List NetSymbol),
        inst2.foldl (fun st conns => createImplicitNets conns netType st.1 st.2) st = st := by
      intro inst2
      induction inst2 with
      | nil => intro st; simp
      | cons i is ih =>
        intro st
        rw [List.foldl_cons]
        have : createImplicitNets i netType st.1 st.2 = st := by
          unfold createImplicitNets
          rw [if_pos herr]
        rw [this]
        exact ih st
    rw [hfix]
  have hokcase : netType.isError = false →
      implicitNetsForStatement instances netType
        = (dedupFirst (allConnectionTokens instances) []).map
            (fun n => ⟨n, netType, "logic"⟩) := by
    intro hok
    unfold implicitNetsForStatement
    rw [implicitNets_fold_spec netType hok instances [] []]
    simp
  refine ⟨fun hok => ⟨hokcase hok, ?_, ?_⟩, herrcase, ?_⟩
  · rw [hokcase hok, List.map_map]
    simp [Function.comp_def]
  · intro n
    rw [hokcase hok, List.map_map]
    have : ((fun net => NetSymbol.name net) ∘ fun n => (⟨n, netType, "logic"⟩ : NetSymbol))
        = id := by
      funext m
      rfl
    rw [this, List.map_id, dedupFirst_count]
    simp
  · intro net hnet
    by_cases herr : netType.isError = true
    · rw [herrcase herr] at hnet
      simp at hnet
    · have hok : netType.isError = false := by simpa using herr
      rw [hokcase hok] at hnet
      obtain ⟨n, _, hn⟩ := List.mem_map.mp hnet
      rw [← hn]
      exact ⟨rfl, rfl⟩

theorem claim_C7_witness :
    implicitNetsForStatement [[some ["a", "b"], none, some ["a"]], [some ["c", "b"]]]
        ⟨"wire", false⟩
      = [⟨"a", ⟨"wire", false⟩, "logic"⟩, ⟨"b", ⟨"wire", false⟩, "logic"⟩,
         ⟨"c", ⟨"wire", false⟩, "logic"⟩] := by
  have h := (claim_C7_implicit_nets ⟨"wire", false⟩
    [[some ["a", "b"], none, some ["a"]], [some ["c", "b"]]]).1 rfl
  rw [h.1]
  decide

theorem blockCommentBody_recons :
    ∀ cs, (blockCommentBody cs).1 ++ cs.drop (blockCommentBody cs).1.length = cs := by
  intro cs
  induction cs using blockCommentBody.induct with
  | case1 => rfl
  | case2 c => rfl
  | case3 c1 c2 rest h =>
    simp only [blockCommentBody]
    rw [if_pos h]
    simp
  | case4 c1 c2 rest h1 h2 ih =>
    simp only [blockCommentBody]
    rw [if_neg h1, if_pos h2]
    simp only [List.length_cons, List.drop_succ_cons]
    simp [ih]
  | case5 c1 c2 rest h1 h2 ih =>
    simp only [blockCommentBody]
    rw [if_neg h1, if_neg h2]
    simp only [List.length_cons, List.drop_succ_cons]
    simp [ih]

theorem scanOctalEscapeDigits_shape (d1 : Char) (cs : List Char) :
    ∃ k, scanOctalEscapeDigits d1 cs = d1 :: cs.take k := by
  match cs with
  | [] => exact ⟨0, rfl⟩
  | [d2] =>
    by_cases h : isOctalDigit d2 = true
    · exact ⟨1, by simp [scanOctalEscapeDigits, h]⟩
    · exact ⟨0, by simp [scanOctalEscapeDigits, h]⟩
  | d2 :: d3 :: r =>
    by_cases h2 : isOctalDigit d2 = true
    · by_cases h3 : isOctalDigit d3 = true
      · exact ⟨2, by simp [scanOctalEscapeDigits, h2, h3]⟩
      · exact ⟨1, by simp [scanOctalEscapeDigits, h2, h3]⟩
    · exact ⟨0, by simp [scanOctalEscapeDigits, h2]⟩

theorem take_append_drop_length (l : List Char) (k : Nat) :
    l.take k ++ l.drop (l.take k).length = l := by
  rw [List.length_take]
  by_cases h : k ≤ l.length
  · rw [min_eq_left h]
    exact List.take_append_drop k l
  · have hlen : min k l.length = l.length := min_eq_right (by omega)
    rw [hlen]
    simp [List.take_of_length_le (by omega : l.length ≤ k)]

theorem scanEscape_recons (cs : List Char) :
    (scanEscape cs).raw ++ cs.drop (scanEscape cs).raw.length = cs := by
  match cs with
  | [] => rfl
  | c :: cs' =>
    simp only [scanEscape]
    by_cases h1 : c = 'n'
    · rw [if_pos h1]; simp
    · rw [if_neg h1]
      by_cases h2 : c = 't'
      · rw [if_pos h2]; simp
      · rw [if_neg h2]
        by_cases h3 : c = 'v'
        · rw [if_pos h3]; simp
        · rw [if_neg h3]
          by_cases h4 : c = 'f'
          · rw [if_pos h4]; simp
          · rw [if_neg h4]
            by_cases h5 : c = 'a'
            · rw [if_pos h5]; simp
            · rw [if_neg h5]
              by_cases h6 : c = '\\'
              · rw [if_pos h6]; simp
              · rw [if_neg h6]
                by_cases h7 : c = '"'
                · rw [if_pos h7]; simp
                · rw [if_neg h7]
                  by_cases h8 : c = '\r'
                  · rw [if_pos h8]
                    cases cs' with
                    | nil => simp [h8]
                    | cons c2 cs'' =>
                      by_cases h9 : c2 = '\n'
                      · subst h9
                        simp [h8]
                      · split
                        · rename_i tail heq
                          exact absurd (by injection heq) h9
                        · simp [h8]
                  · rw [if_neg h8]
                    by_cases h9 : c = '\n'
                    · rw [if_pos h9]; simp [h9]
                    · rw [if_neg h9]
                      by_cases h10 : isOctalDigit c = true
                      · rw [if_pos h10]
                        obtain ⟨k, hk⟩ := scanOctalEscapeDigits_shape c cs'
                        by_cases hv : 256 ≤ digitsValue 8 (scanOctalEscapeDigits c cs')
                        · rw [if_pos hv]
                          simp only [hk, List.length_cons, List.drop_succ_cons]
                          exact congrArg (c :: ·) (take_append_drop_length cs' k)
                        · rw [if_neg hv]
                          simp only [hk, List.length_cons, List.drop_succ_cons]
                          exact congrArg (c :: ·) (take_append_drop_length cs' k)
                      · rw [if_neg h10]
                        by_cases h11 : c = 'x'
                        · rw [if_pos h11]
                          split
                          · simp [h11]
                          · rename_i hc1 cs2
                            by_cases hh1 : isHexDigit hc1 = true
                            · rw [if_pos hh1]
                              split
                              · rename_i hc2 cs3
                                by_cases hh2 : isHexDigit hc2 = true
                                · rw [if_pos hh2]
                                  simp [h11]
                                · rw [if_neg hh2]
                                  simp [h11]
                              · simp [h11]
                            · rw [if_neg hh1]
                              simp [h11]
                        · rw [if_neg h11]
                          simp

theorem takeWhile_append_drop (p : Char → Bool) (l : List Char) :
    l.takeWhile p ++ l.drop (l.takeWhile p).length = l := by
  induction l with
  | nil => rfl
  | cons c t ih =>
    by_cases hp : p c = true
    · simp only [List.takeWhile_cons, hp, if_true, List.length_cons, List.drop_succ_cons,
        List.cons_append]
      rw [ih]
    · simp [List.takeWhile_cons, hp]

theorem scanStringBody_recons :
    ∀ fuel cs, (scanStringBody fuel cs).raw ++ cs.drop (scanStringBody fuel cs).raw.length = cs := by
  intro fuel
  induction fuel with
  | zero => intro cs; rfl
  | succ fuel ih =>
    intro cs
    cases cs with
    | nil => rfl
    | cons c cs' =>
      simp only [scanStringBody]
      by_cases h1 : c = '"'
      · rw [if_pos h1]; simp [h1]
      · rw [if_neg h1]
        by_cases h2 : isNewlineChar c = true
        · rw [if_pos h2]; simp
        · rw [if_neg h2]
          by_cases h3 : c = '\\'
          · rw [if_pos h3]
            subst h3
            simp only [List.cons_append, List.length_cons, List.drop_succ_cons,
              List.cons.injEq, true_and, List.append_assoc, List.length_append]
            rw [← List.drop_drop]
            rw [ih (cs'.drop (scanEscape cs').raw.length)]
            exact scanEscape_recons cs'
          · rw [if_neg h3]
            simp only [List.cons_append, List.length_cons, List.drop_succ_cons,
              List.cons.injEq, true_and]
            exact ih cs'

theorem scanTrivia_recons :
    ∀ fuel cs, triviaRawText (scanTrivia fuel cs).pieces ++ (scanTrivia fuel cs).rest = cs := by
  intro fuel
  induction fuel with
  | zero => intro cs; simp [scanTrivia, triviaRawText]
  | succ fuel ih =>
    intro cs
    cases cs with
    | nil => simp [scanTrivia, triviaRawText]
    | cons c cs' =>
      simp only [scanTrivia]
      by_cases h1 : isWhitespaceChar c = true
      · rw [if_pos h1]
        have h := ih (cs'.drop (cs'.takeWhile isWhitespaceChar).length)
        simp only [triviaRawText, List.map_cons, List.flatten_cons, List.cons_append,
          List.append_assoc, List.cons.injEq, true_and] at h ⊢
        rw [h]
        exact takeWhile_append_drop isWhitespaceChar cs'
      · rw [if_neg h1]
        by_cases h2 : c = '\x0d'
        · rw [if_pos h2]
          subst h2
          split
          · rename_i cs''
            have h := ih cs''
            simp only [triviaRawText, List.map_cons, List.flatten_cons, List.cons_append,
              List.append_assoc, List.cons.injEq, true_and, List.nil_append] at h ⊢
            exact h
          · have h := ih cs'
            simp only [triviaRawText, List.map_cons, List.flatten_cons, List.cons_append,
              List.append_assoc, List.cons.injEq, true_and, List.nil_append] at h ⊢
            exact h
        · rw [if_neg h2]
          by_cases h3 : c = '\n'
          · rw [if_pos h3]
            subst h3
            have h := ih cs'
            simp only [triviaRawText, List.map_cons, List.flatten_cons, List.cons_append,
              List.append_assoc, List.cons.injEq, true_and, List.nil_append] at h ⊢
            exact h
          · rw [if_neg h3]
            by_cases h4 : c = '/'
            · rw [if_pos h4]
              subst h4
              split
              · rename_i cs''
                have h := ih (cs''.drop (cs''.takeWhile (fun x => !isNewlineChar x)).length)
                simp only [triviaRawText, List.map_cons, List.flatten_cons, List.cons_append,
                  List.append_assoc, List.cons.injEq, true_and, List.nil_append] at h ⊢
                rw [h]
                exact takeWhile_append_drop (fun x => !isNewlineChar x) cs''
              · rename_i cs''
                have h := ih (cs''.drop (blockCommentBody cs'').1.length)
                simp only [triviaRawText, List.map_cons, List.flatten_cons, List.cons_append,
                  List.append_assoc, List.cons.injEq, true_and, List.nil_append] at h ⊢
                rw [h]
                exact blockCommentBody_recons cs''
              · simp [triviaRawText]
            · rw [if_neg h4]
              simp [triviaRawText]

theorem scanTrivia_rest_le (fuel : Nat) (cs : List Char) :
    (scanTrivia fuel cs).rest.length ≤ cs.length := by
  have h := congrArg List.length (scanTrivia_recons fuel cs)
  simp only [List.length_append] at h
  omega

theorem scanToken_recons (c : Char) (cs : List Char) :
    (scanToken c cs).raw ++ (scanToken c cs).rest = c :: cs ∧
    (scanToken c cs).rest.length ≤ cs.length := by
  simp only [scanToken]
  by_cases h1 : isIdentStart c = true
  · rw [if_pos h1]
    constructor
    · show (c :: cs.takeWhile isIdentChar) ++
        cs.drop (cs.takeWhile isIdentChar).length = c :: cs
      rw [List.cons_append, takeWhile_append_drop]
    · show (cs.drop (cs.takeWhile isIdentChar).length).length ≤ cs.length
      simp [List.length_drop]
  · rw [if_neg h1]
    by_cases h2 : isDecimalDigit c = true
    · rw [if_pos h2]
      constructor
      · show (c :: cs.takeWhile (fun x => isDecimalDigit x || decide (x = '_'))) ++
          cs.drop (cs.takeWhile (fun x => isDecimalDigit x || decide (x = '_'))).length = c :: cs
        rw [List.cons_append, takeWhile_append_drop]
      · show (cs.drop (cs.takeWhile (fun x => isDecimalDigit x || decide (x = '_'))).length).length ≤
          cs.length
        simp [List.length_drop]
    · rw [if_neg h2]
      by_cases h3 : c = '"'
      · rw [if_pos h3]
        constructor
        · show ('"' :: (scanStringBody (cs.length + 1) cs).raw) ++
            cs.drop (scanStringBody (cs.length + 1) cs).raw.length = c :: cs
          rw [List.cons_append, scanStringBody_recons, h3]
        · show (cs.drop (scanStringBody (cs.length + 1) cs).raw.length).length ≤ cs.length
          simp [List.length_drop]
      · rw [if_neg h3]
        constructor
        · show [c] ++ cs = c :: cs
          rfl
        · show cs.length ≤ cs.length
          exact le_refl _

theorem lexLoop_spec :
    ∀ fuel cs, cs.length < fuel →
      streamText (lexLoop fuel cs).1 = cs ∧
      ((lexLoop fuel cs).1.getLast?).map Token.kind = some TokenKind.EndOfFile := by
  intro fuel
  induction fuel with
  | zero => intro cs h; exact absurd h (Nat.not_lt_zero _)
  | succ fuel ih =>
    intro cs hlen
    simp only [lexLoop]
    split
    · rename_i heq
      refine ⟨?_, rfl⟩
      have h := scanTrivia_recons (cs.length + 1) cs
      rw [heq, List.append_nil] at h
      simp [streamText, tokenFullText, h]
    · rename_i c cs' heq
      have hT := scanTrivia_recons (cs.length + 1) cs
      rw [heq] at hT
      obtain ⟨hS1, hS2⟩ := scanToken_recons c cs'
      have hlen2 : (scanToken c cs').rest.length < fuel := by
        have hl := congrArg List.length hT
        simp only [List.length_append, List.length_cons] at hl
        omega
      obtain ⟨hR1, hR2⟩ := ih (scanToken c cs').rest hlen2
      constructor
      · simp only [streamText, List.map_cons, List.flatten_cons, tokenFullText] at hR1 ⊢
        rw [List.append_assoc, hR1, hS1, hT]
      · cases hr : (lexLoop fuel (scanToken c cs').rest).1 with
        | nil => rw [hr] at hR2; simp at hR2
        | cons b bs =>
          rw [hr] at hR2
          rw [List.getLast?_cons_cons]
          exact hR2

/-- C1: for every input character sequence, concatenating each produced
token's leading-trivia raw text with its raw text, over the whole token
stream (which is terminated by an `EndOfFile` token), reproduces the input
exactly — also when diagnostics were emitted along the way. -/
theorem claim_C1_lex_round_trip (cs : List Char) :
    streamText (lex cs).1 = cs ∧
    ((lex cs).1.getLast?).map Token.kind = some TokenKind.EndOfFile :=
  lexLoop_spec (cs.length + 1) cs (Nat.lt_succ_self _)

theorem scanEscape_octal (d1 : Char) (cs : List Char)
    (h1 : isOctalDigit d1 = true)
    (hbig : 256 ≤ digitsValue 8 (scanOctalEscapeDigits d1 cs)) :
    scanEscape (d1 :: cs) =
      ⟨scanOctalEscapeDigits d1 cs, [], [DiagCode.OctalEscapeCodeTooBig]⟩ := by
  have hn : ¬(d1 = 'n') := fun heq => absurd (heq ▸ h1) (by decide)
  have ht : ¬(d1 = 't') := fun heq => absurd (heq ▸ h1) (by decide)
  have hv : ¬(d1 = 'v') := fun heq => absurd (heq ▸ h1) (by decide)
  have hf : ¬(d1 = 'f') := fun heq => absurd (heq ▸ h1) (by decide)
  have ha : ¬(d1 = 'a') := fun heq => absurd (heq ▸ h1) (by decide)
  have hbs : ¬(d1 = '\\') := fun heq => absurd (heq ▸ h1) (by decide)
  have hq : ¬(d1 = '"') := fun heq => absurd (heq ▸ h1) (by decide)
  have hcr : ¬(d1 = '\x0d') := fun heq => absurd (heq ▸ h1) (by decide)
  have hlf : ¬(d1 = '\n') := fun heq => absurd (heq ▸ h1) (by decide)
  simp only [scanEscape]
  rw [if_neg hn, if_neg ht, if_neg hv, if_neg hf, if_neg ha, if_neg hbs, if_neg hq,
    if_neg hcr, if_neg hlf, if_pos h1, if_pos hbig]

theorem scanStringBody_plain :
    ∀ (s : List Char) (fuel : Nat) (rest : List Char),
      (∀ c ∈ s, plainStringChar c = true) →
      scanStringBody (s.length + fuel) (s ++ rest) =
        ⟨s ++ (scanStringBody fuel rest).raw, s ++ (scanStringBody fuel rest).val,
         (scanStringBody fuel rest).diags⟩ := by
  intro s
  induction s with
  | nil =>
    intro fuel rest h
    simp only [List.length_nil, Nat.zero_add, List.nil_append]
  | cons c s' ih =>
    intro fuel rest h
    have hc := h c (List.mem_cons_self c s')
    have hs' : ∀ x ∈ s', plainStringChar x = true :=
      fun x hx => h x (List.mem_cons_of_mem c hx)
    simp only [plainStringChar, Bool.not_eq_true', Bool.or_eq_false_iff,
      decide_eq_false_iff_not] at hc
    obtain ⟨⟨⟨hq, hbs⟩, hcr⟩, hlf⟩ := hc
    have hlen : (c :: s' : List Char).length + fuel = (s'.length + fuel) + 1 := by
      simp only [List.length_cons]
      omega
    rw [hlen]
    simp only [List.cons_append, scanStringBody]
    rw [if_neg hq]
    rw [if_neg (show ¬(isNewlineChar c = true) by simp [isNewlineChar, hcr, hlf])]
    rw [if_neg hbs]
    rw [ih fuel rest hs']

theorem scanStringBody_escape (fuel : Nat) (cs : List Char) :
    scanStringBody (fuel + 1) ('\\' :: cs) =
      ⟨'\\' :: ((scanEscape cs).raw ++
         (scanStringBody fuel (cs.drop (scanEscape cs).raw.length)).raw),
       (scanEscape cs).val ++ (scanStringBody fuel (cs.drop (scanEscape cs).raw.length)).val,
       (scanEscape cs).diags ++
         (scanStringBody fuel (cs.drop (scanEscape cs).raw.length)).diags⟩ := by
  simp only [scanStringBody]
  simp
  all_goals decide

theorem scanStringBody_octal_tail (d1 d2 d3 : Char)
    (h1 : isOctalDigit d1 = true) (h2 : isOctalDigit d2 = true) (h3 : isOctalDigit d3 = true)
    (hbig : 256 ≤ digitsValue 8 [d1, d2, d3]) :
    scanStringBody 6 ('\\' :: d1 :: d2 :: d3 :: ['"']) =
      ⟨['\\', d1, d2, d3, '"'], [], [DiagCode.OctalEscapeCodeTooBig]⟩ := by
  have hds : scanOctalEscapeDigits d1 [d2, d3, '"'] = [d1, d2, d3] := by
    simp [scanOctalEscapeDigits, h2, h3]
  have he := scanEscape_octal d1 [d2, d3, '"'] h1 (by rw [hds]; exact hbig)
  rw [hds] at he
  show scanStringBody (5 + 1) _ = _
  rw [scanStringBody_escape 5 (d1 :: d2 :: d3 :: ['"'])]
  rw [he]
  simp only [List.length_cons, List.length_nil, List.drop_succ_cons, List.drop_zero]
  rw [show scanStringBody 5 ['"'] = ⟨['"'], [], []⟩ from rfl]
  simp

theorem scanTrivia_quote (fuel : Nat) (cs : List Char) :
    scanTrivia (fuel + 1) ('"' :: cs) = ⟨[], [], '"' :: cs⟩ := by
  simp only [scanTrivia]
  rw [if_neg (by decide : ¬(isWhitespaceChar '"' = true)),
    if_neg (by decide : ¬('"' = '\x0d')), if_neg (by decide : ¬('"' = '\n')),
    if_neg (by decide : ¬('"' = '/'))]

theorem scanTrivia_nil (fuel : Nat) : scanTrivia (fuel + 1) [] = ⟨[], [], []⟩ := rfl

theorem lexLoop_nil (fuel : Nat) :
    lexLoop (fuel + 1) [] = ([⟨TokenKind.EndOfFile, [], [], []⟩], []) := rfl

theorem scanToken_quote (cs : List Char) :
    scanToken '"' cs =
      ⟨TokenKind.StringLiteral, '"' :: (scanStringBody (cs.length + 1) cs).raw,
       (scanStringBody (cs.length + 1) cs).val, (scanStringBody (cs.length + 1) cs).diags,
       cs.drop (scanStringBody (cs.length + 1) cs).raw.length⟩ := by
  simp only [scanToken]
  split
  · rename_i h
    exact absurd h (by decide)
  · split
    · rename_i h
      exact absurd h (by decide)
    · split
      · rfl
      · rename_i h
        exact absurd trivial h

/-- C8: lexing a string literal whose body is plain characters followed by
an octal escape of value ≥ 0x100 yields a `StringLiteral` token whose
decoded value text is exactly the plain characters (the escape contributes
nothing), together with exactly one `OctalEscapeCodeTooBig` diagnostic,
and the token stream still carries the full input text. -/
theorem claim_C8_octal_escape_too_big
    (s : List Char) (d1 d2 d3 : Char)
    (hs : ∀ c ∈ s, plainStringChar c = true)
    (h1 : isOctalDigit d1 = true) (h2 : isOctalDigit d2 = true) (h3 : isOctalDigit d3 = true)
    (hbig : 256 ≤ digitsValue 8 [d1, d2, d3]) :
    lex ('"' :: s ++ '\\' :: d1 :: d2 :: d3 :: ['"']) =
      ([⟨TokenKind.StringLiteral, [], '"' :: (s ++ ['\\', d1, d2, d3, '"']), s⟩,
        ⟨TokenKind.EndOfFile, [], [], []⟩],
       [DiagCode.OctalEscapeCodeTooBig]) := by
  have hL : (s ++ ('\\' :: d1 :: d2 :: d3 :: ['"'])).length + 1 = s.length + 6 := by
    simp [List.length_append]
  have hbody : scanStringBody (s.length + 6) (s ++ ('\\' :: d1 :: d2 :: d3 :: ['"'])) =
      ⟨s ++ ['\\', d1, d2, d3, '"'], s, [DiagCode.OctalEscapeCodeTooBig]⟩ := by
    rw [scanStringBody_plain s 6 _ hs, scanStringBody_octal_tail d1 d2 d3 h1 h2 h3 hbig]
    simp
  simp only [lex, lexLoop, List.cons_append, scanTrivia_quote, scanToken_quote, hL, hbody,
    List.drop_length, scanTrivia_nil, lexLoop_nil]
  simp

theorem claim_C8_witness :
    (∀ c ∈ "literal".toList, plainStringChar c = true) ∧
    lex ('"' :: "literal".toList ++ '\\' :: '4' :: '0' :: '0' :: ['"']) =
      ([⟨TokenKind.StringLiteral, [],
         '"' :: ("literal".toList ++ ['\\', '4', '0', '0', '"']), "literal".toList⟩,
        ⟨TokenKind.EndOfFile, [], [], []⟩],
       [DiagCode.OctalEscapeCodeTooBig]) :=
  ⟨by decide,
   claim_C8_octal_escape_too_big "literal".toList '4' '0' '0' (by decide)
     (by decide) (by decide) (by decide) (by decide)⟩

end SlangModel
